import Mathlib

/-!
# vac: credential cache and secret-store client

A shallow embedding of `pkg/state/state.go` and `lib/client/vault.go`.

* The Go strings that are valid UTF-8 are the Lean strings; Go compares strings bytewise,
  which on UTF-8 text is the order of the code point sequences, the order of `String`
  here.  A Go string with other bytes has no counterpart.
* A `time.Time` is an instant and the offset of its location, see `Time`.
* A Go map is a `GoMap`: a duplicate-free association list.  The order of the entries stands
  for the unspecified iteration order of `range`, so a statement about every `GoMap`
  is a statement about every iteration order.  A map-typed variable is an `Option (GoMap V)`;
  `none` is the nil map.
* A pointer `*client.AWSCredentials` is an `Option client.AWSCredentials`; `none` is the nil pointer.
* A run-time panic is the `fault` outcome of `Outcome`.
-/

namespace Vac

/-! ## Go maps -/

/-- A non-nil Go map with string keys: an association list without repeated keys. -/
structure GoMap (V : Type) where
  entries : List (String × V)
  nodup : (entries.map Prod.fst).Nodup

namespace GoMap

variable {V : Type}

/-- The map made by `make(map[string]V)`. -/
def empty : GoMap V := ⟨[], List.nodup_nil⟩

/-- Lookup in an association list: the value of the first entry with the key. -/
def lookupEntries : List (String × V) → String → Option V
  | [], _ => none
  | (k', v') :: t, k => if k' = k then some v' else lookupEntries t k

/-- Assignment in an association list: replace the value in place, or add an entry. -/
def upsertEntries : List (String × V) → String → V → List (String × V)
  | [], k, v => [(k, v)]
  | (k', v') :: t, k, v => if k' = k then (k, v) :: t else (k', v') :: upsertEntries t k v

/-- The comma-ok lookup `v, ok := m[k]`: `none` when the key is absent. -/
def get? (m : GoMap V) (k : String) : Option V := lookupEntries m.entries k

/-- The keys, in the order in which `range` visits them. -/
def keys (m : GoMap V) : List String := m.entries.map Prod.fst

/-- The assignment `m[k] = v` on a non-nil map. -/
def set (m : GoMap V) (k : String) (v : V) : GoMap V :=
  ⟨upsertEntries m.entries k v, by
    have key : ∀ l : List (String × V), (upsertEntries l k v).map Prod.fst =
        if k ∈ l.map Prod.fst then l.map Prod.fst else l.map Prod.fst ++ [k] := by
      intro l
      induction l with
      | nil => simp [upsertEntries]
      | cons hd t ih =>
        obtain ⟨k', v'⟩ := hd
        by_cases h : k' = k
        · subst h
          simp [upsertEntries]
        · have h' : ¬ k = k' := fun e => h e.symm
          simp only [upsertEntries, if_neg h, List.map_cons, ih, List.mem_cons, h', false_or]
          split <;> simp
    rw [key]
    split
    · exact m.nodup
    · rename_i hk
      exact List.Nodup.append m.nodup (List.nodup_singleton k) (by simpa using hk)⟩

end GoMap

/-- The read `m[k]` of a possibly nil map, comma-ok form: a nil map has no keys. -/
def mapGet? {V : Type} (m : Option (GoMap V)) (k : String) : Option V :=
  match m with
  | none => none
  | some g => g.get? k

/-- The keys visited by `for k := range m` on a possibly nil map. -/
def mapKeys {V : Type} (m : Option (GoMap V)) : List String :=
  match m with
  | none => []
  | some g => g.keys

/-! ## `sort.Strings` -/

/-- The comparison `a < b` of two Go strings. -/
def stringLess (a b : String) : Bool := decide (a.data < b.data)

/-- Insert a string in front of the first element that is not smaller. -/
def insertString (a : String) : List String → List String
  | [] => [a]
  | b :: t => if stringLess b a then b :: insertString a t else a :: b :: t

/-- The standard library's `sort.Strings`: the argument rearranged into increasing order. -/
def sortStrings : List String → List String
  | [] => []
  | a :: t => insertString a (sortStrings t)

/-! ## Outcomes -/

/-- The outcome of a call that may panic. -/
inductive Outcome (α : Type) where
  | ret (a : α)
  | fault (msg : String)
  deriving DecidableEq, Repr

/-! ## `client.AWSCredentials` -/

/-- A `time.Time`: the wall-clock instant it denotes, in nanoseconds since January 1 of
year 1, 00:00 UTC, and the offset of its location at that instant, in seconds east of
UTC.  The monotonic clock reading and the name of the location are not part of the
model, and the ends of the range of `time.Time`, billions of years away, are not
modelled. -/
structure Time where
  nanos : Int
  offset : Int
  deriving DecidableEq, Repr

/-- The zero value of `time.Time`: the instant zero, in UTC. -/
def Time.zero : Time := ⟨0, 0⟩

namespace client

/-- The anonymous struct `Metadata` of `AWSCredentials`. -/
structure Metadata where
  CreatedAt : Time
  ExpireAt : Time
  RenewBefore : Time
  deriving DecidableEq, Repr

/-- The struct `AWSCredentials` of `lib/client/vault.go`. -/
structure AWSCredentials where
  Metadata : Metadata
  AccessKeyID : String
  SecretAccessKey : String
  SecurityToken : String
  deriving DecidableEq, Repr

/-- The value of `&AWSCredentials{}`. -/
def AWSCredentials.zero : AWSCredentials :=
  ⟨⟨Time.zero, Time.zero, Time.zero⟩, "", "", ""⟩

end client

/-! ## `state.State` -/

/-- The anonymous struct `Current` of `State`. -/
structure Current where
  Engine : String
  Role : String
  deriving DecidableEq, Repr

/-- The type `map[string]*client.AWSCredentials`, nil included. -/
abbrev RoleMap := Option (GoMap (Option client.AWSCredentials))

/-- The struct `State` of `pkg/state/state.go`. -/
structure State where
  Current : Current
  AWSCredentials : Option (GoMap RoleMap)

/-- The value of `&State{}`. -/
def State.zero : State := ⟨⟨"", ""⟩, none⟩

/-- The method `SetCurrentEngine`. -/
def State.SetCurrentEngine (s : State) (engine : String) : State :=
  { s with Current := { s.Current with Engine := engine } }

/-- The method `SetCurrentRole`. -/
def State.SetCurrentRole (s : State) (role : String) : State :=
  { s with Current := { s.Current with Role := role } }

/-- The map `s.AWSCredentials` after `if s.AWSCredentials == nil { s.AWSCredentials =
make(...) }`. -/
def State.outer (s : State) : GoMap RoleMap :=
  match s.AWSCredentials with
  | none => GoMap.empty
  | some m => m

/-- The method `SetAWSCredentials`.  The outer map is made when nil, the inner map when
the engine is not a key; the assignment `s.AWSCredentials[engine][role] = creds` panics
when the engine is a key bound to a nil inner map. -/
def State.SetAWSCredentials (s : State) (engine role : String) (creds : Option client.AWSCredentials) :
    Outcome State :=
  let outer : GoMap RoleMap :=
    match s.outer.get? engine with
    | none => s.outer.set engine (some GoMap.empty)
    | some _ => s.outer
  match outer.get? engine with
  | some (some inner) =>
    Outcome.ret { s with AWSCredentials := some (outer.set engine (some (inner.set role creds))) }
  | _ => Outcome.fault "assignment to entry in nil map"

/-- The method `SetCurrentAWSCredentials`. -/
def State.SetCurrentAWSCredentials (s : State) (creds : Option client.AWSCredentials) : Outcome State :=
  s.SetAWSCredentials s.Current.Engine s.Current.Role creds

/-- The method `GetAWSCredentials`; `none` is the nil pointer. -/
def State.GetAWSCredentials (s : State) (engine role : String) : Option client.AWSCredentials :=
  match s.AWSCredentials with
  | some m =>
    match m.get? engine with
    | some inner =>
      match mapGet? inner role with
      | some creds => creds
      | none => none
    | none => none
  | none => none

/-- The method `GetCurrentAWSCredentials`. -/
def State.GetCurrentAWSCredentials (s : State) : Option client.AWSCredentials :=
  s.GetAWSCredentials s.Current.Engine s.Current.Role

/-- The method `GetCachedEngines`. -/
def State.GetCachedEngines (s : State) : List String :=
  sortStrings (mapKeys s.AWSCredentials)

/-- The read `s.AWSCredentials[engine]`: the nil map when the outer map is nil or has
no such key. -/
def State.rolesOf (s : State) (engine : String) : RoleMap :=
  match mapGet? s.AWSCredentials engine with
  | some inner => inner
  | none => none

/-- The method `GetCachedEngineRoles`. -/
def State.GetCachedEngineRoles (s : State) (engine : String) : List String :=
  sortStrings (mapKeys (s.rolesOf engine))

/-! ## The secret store's responses -/

/-- A Go `error` value, by its message. -/
abbrev Error := String

/-- A value of type `interface{}` as the JSON decoder of the secret store's client
library produces it (`nil`, `bool`, `json.Number`, `string`, `[]interface{}`,
`map[string]interface{}`); also the value tree of a JSON text. -/
inductive Json where
  | null
  | bool (b : Bool)
  | number (lit : String)
  | str (s : String)
  | arr (xs : List Json)
  | obj (kvs : List (String × Json))

/-- The fields of `vault.Secret` that the client reads; `LeaseDuration` is a Go `int`,
of 64 bits on the platforms of the tool. -/
structure Secret where
  LeaseDuration : Int
  Data : Option (GoMap Json)

/-- The calls of the client library that the two operations make: `Logical().List(path)`
and `Logical().Write(path, payload)`, each answering a response pointer and an error. -/
structure Client where
  List : String → Option Secret × Option Error
  Write : String → GoMap Json → Option Secret × Option Error

/-! ## `fmt.Sprintf("%ds", n)` and `time.ParseDuration` -/

/-- The decimal digit character of a number below ten. -/
def digitChar (d : Nat) : Char :=
  match d with
  | 0 => '0' | 1 => '1' | 2 => '2' | 3 => '3' | 4 => '4'
  | 5 => '5' | 6 => '6' | 7 => '7' | 8 => '8' | _ => '9'

/-- The digits of `n` in front of `acc`, most significant first; `fuel` bounds the number
of digits. -/
def decimalAux : Nat → Nat → List Char → List Char
  | 0, _, acc => acc
  | fuel + 1, n, acc =>
    if n < 10 then digitChar n :: acc
    else decimalAux fuel (n / 10) (digitChar (n % 10) :: acc)

/-- The decimal numeral of a natural number. -/
def decimal (n : Nat) : List Char := decimalAux (n + 1) n []

/-- The text `fmt.Sprintf("%ds", n)`: the decimal numeral of `n`, signed when negative,
followed by the letter `s`. -/
def sprintfSeconds (n : Int) : List Char :=
  match n with
  | Int.ofNat m => decimal m ++ ['s']
  | Int.negSucc m => '-' :: (decimal (m + 1) ++ ['s'])

/-- Whether a byte is one of `0` to `9`. -/
def isDigit (c : Char) : Bool := decide ('0' ≤ c) && decide (c ≤ '9')

/-- The loop of `leadingInt` in package `time`, from the accumulator `x`: the leading
digits as a number and the rest of the text; `none` is `errLeadingInt`, the overflow of
`1<<63`. -/
def leadingInt : Nat → List Char → Option (Nat × List Char)
  | x, [] => some (x, [])
  | x, c :: s =>
    if !isDigit c then some (x, c :: s)
    else if x > 2 ^ 63 / 10 then none
    else
      let x' := x * 10 + (c.toNat - '0'.toNat)
      if x' > 2 ^ 63 then none else leadingInt x' s

/-- The table `unitMap` of package `time`: nanoseconds per unit. -/
def unitMap (u : List Char) : Option Nat :=
  if u = ['n', 's'] then some 1
  else if u = ['u', 's'] then some 1000
  else if u = ['µ', 's'] then some 1000
  else if u = ['μ', 's'] then some 1000
  else if u = ['m', 's'] then some 1000000
  else if u = ['s'] then some 1000000000
  else if u = ['m'] then some 60000000000
  else if u = ['h'] then some 3600000000000
  else none

/-- The result of `time.ParseDuration`: a duration in nanoseconds, or an error, whose
message is kept without the quoted input; `fractional` marks a text with a decimal
point, on which the function is not modelled. -/
inductive ParseResult where
  | ok (d : Int)
  | invalid (msg : Error)
  | fractional
  deriving DecidableEq, Repr

/-- The loop `for s != ""` of `time.ParseDuration` with the sum `d` so far, on the rest
`s` of the text: every round reads an integer and a unit.  A round that meets a decimal
point answers `fractional`: the fraction is computed in floating point and is not
modelled.  `fuel` bounds the number of rounds, each of which consumes a character. -/
def parseDurationLoop : Nat → Nat → List Char → Option Nat ⊕ Unit
  | 0, _, _ => Sum.inl none
  | _ + 1, d, [] => Sum.inl (some d)
  | fuel + 1, d, c :: s =>
    if !(c = '.' || isDigit c) then Sum.inl none
    else
      match leadingInt 0 (c :: s) with
      | none => Sum.inl none
      | some (v, rest) =>
        if rest.head? = some '.' then Sum.inr ()
        else if rest.length = (c :: s).length then Sum.inl none
        else
          let u := rest.takeWhile (fun b => !(b = '.' || isDigit b))
          let rest' := rest.dropWhile (fun b => !(b = '.' || isDigit b))
          if u = [] then Sum.inl none
          else
            match unitMap u with
            | none => Sum.inl none
            | some unit =>
              if v > 2 ^ 63 / unit then Sum.inl none
              else
                let d' := d + v * unit
                if d' > 2 ^ 63 then Sum.inl none else parseDurationLoop fuel d' rest'

/-- The function `time.ParseDuration` on the text `orig`: an optional sign, then the
loop, then the check that the sum fits a signed 64-bit number. -/
def ParseDuration (orig : List Char) : ParseResult :=
  let neg := orig.head? = some '-'
  let s := if orig.head? = some '-' ∨ orig.head? = some '+' then orig.tail else orig
  if s = ['0'] then ParseResult.ok 0
  else if s = [] then ParseResult.invalid "time: invalid duration"
  else
    match parseDurationLoop (s.length + 1) 0 s with
    | Sum.inr _ => ParseResult.fractional
    | Sum.inl none => ParseResult.invalid "time: invalid duration"
    | Sum.inl (some d) =>
      if neg then ParseResult.ok (-(d : Int))
      else if d > 2 ^ 63 - 1 then ParseResult.invalid "time: invalid duration"
      else ParseResult.ok d

/-- The method `Time.Add`: the instant `d` nanoseconds later, in the location of `t`,
whose offset is taken to be the same at the new instant. -/
def Time.Add (t : Time) (d : Int) : Time := ⟨t.nanos + d, t.offset⟩

/-! ## The operations of `lib/client/vault.go` -/

namespace client

/-- The loop `for _, role := range keys { roles = append(roles, role.(string)) }`: the
assertion `role.(string)` panics at the first element that is not a string. -/
def appendRoles : List String → List Json → Outcome (List String)
  | roles, [] => Outcome.ret roles
  | roles, Json.str r :: rest => appendRoles (roles ++ [r]) rest
  | _, _ :: _ => Outcome.fault "interface conversion: interface {} is not string"

/-- The method `ListAWSSecretEngineRoles`, on the answer of the list call. -/
def ListAWSSecretEngineRoles (c : Client) (awsSecretEngine : String) :
    Outcome (List String × Option Error) :=
  match c.List ("/" ++ awsSecretEngine ++ "/roles") with
  | (_, some err) => Outcome.ret ([], some err)
  | (foundRoles, none) =>
    match foundRoles with
    | some ⟨_, some data⟩ =>
      match data.get? "keys" with
      | some (Json.arr keys) =>
        match appendRoles [] keys with
        | Outcome.ret roles => Outcome.ret (roles, none)
        | Outcome.fault msg => Outcome.fault msg
      | some _ => Outcome.fault "interface conversion: interface {} is not []interface {}"
      | none => Outcome.ret ([], none)
    | _ => Outcome.ret ([], none)

/-- The statement `if _, ok := data[key]; ok { field = data[key].(string) }`: the field
keeps its value when the key is absent, and the assertion panics on a value that is
not a string. -/
def assignString (data : GoMap Json) (key : String) (field : String) : Outcome String :=
  match data.get? key with
  | none => Outcome.ret field
  | some (Json.str v) => Outcome.ret v
  | some _ => Outcome.fault "interface conversion: interface {} is not string"

/-- The method `GenerateAWSCredentials`, at the instant `now` that `time.Now()` answers.
The lease duration is read from the response before the response is compared with nil. -/
def GenerateAWSCredentials (c : Client) (now : Time) (secretEngineName secretEngineRole : String) :
    Outcome (Option AWSCredentials × Option Error) :=
  match c.Write ("/" ++ secretEngineName ++ "/sts/" ++ secretEngineRole) GoMap.empty with
  | (_, some err) => Outcome.ret (none, some err)
  | (output, none) =>
    let creds : AWSCredentials :=
      { AWSCredentials.zero with Metadata := { AWSCredentials.zero.Metadata with CreatedAt := now } }
    match output with
    | none => Outcome.fault "invalid memory address or nil pointer dereference"
    | some out =>
      match ParseDuration (sprintfSeconds out.LeaseDuration) with
      | ParseResult.ok leaseDuration =>
        let creds : AWSCredentials :=
          { creds with Metadata :=
              { creds.Metadata with ExpireAt := Time.Add creds.Metadata.CreatedAt leaseDuration } }
        match out.Data with
        | none => Outcome.ret (some creds, none)
        | some data =>
          match assignString data "access_key" creds.AccessKeyID with
          | Outcome.fault msg => Outcome.fault msg
          | Outcome.ret accessKey =>
            match assignString data "secret_key" creds.SecretAccessKey with
            | Outcome.fault msg => Outcome.fault msg
            | Outcome.ret secretKey =>
              match assignString data "security_token" creds.SecurityToken with
              | Outcome.fault msg => Outcome.fault msg
              | Outcome.ret token =>
                Outcome.ret
                  (some { creds with
                    AccessKeyID := accessKey, SecretAccessKey := secretKey, SecurityToken := token },
                   none)
      | ParseResult.invalid msg => Outcome.ret (some creds, some msg)
      | ParseResult.fractional => Outcome.ret (some creds, some "time: invalid duration")

end client

/-- The method `Time.Sub`, a `time.Duration`: the difference of the instants, kept within
the 64-bit range. -/
def Time.Sub (t u : Time) : Int :=
  if t.nanos - u.nanos < -(2 ^ 63) then -(2 ^ 63)
  else if t.nanos - u.nanos > 2 ^ 63 - 1 then 2 ^ 63 - 1
  else t.nanos - u.nanos

/-! ## The state file -/

/-- The text form of a `time.Time` in JSON, given by the standard library.  The text is
the RFC 3339 timestamp of the clock reading in the location of the value, followed by
`Z` when the offset is zero and by the offset in hours and minutes otherwise: the
seconds of the offset are not written.  `format clock offset` is the string that
`Time.MarshalJSON` writes for the clock reading `clock`, in nanoseconds since January 1
of year 1, 00:00 on that clock, at the offset of `offset` seconds; it is `none` when the
method refuses the value, the year being outside `[0,9999]`.  `parse` gives the clock
reading and the offset in seconds that `Time.UnmarshalJSON` reads from a string, and
`none` when the string is not a timestamp.  Reading what was written gives the clock
reading back, and the offset cut to whole minutes as the integer division of Go
cuts it. -/
structure TimeCodec where
  format : Int → Int → Option String
  parse : String → Option (Int × Int)
  parse_format : ∀ clock offset text, format clock offset = some text →
    parse text = some (clock, 60 * offset.tdiv 60)

/-- What a file holds: a JSON text, given by its value tree, or bytes that are not JSON. -/
inductive FileContent where
  | garbage
  | json (j : Json)

/-- What a path names. -/
inductive FileEntry where
  | absent
  | unreadable (err : Error)
  | file (content : FileContent)

/-- The file system: what each path names, and the error that writing a path meets, if
any.  A path and its `filepath.Clean` form name the same file. -/
structure FS where
  entry : String → FileEntry
  denied : String → Option Error

/-- The call `ioutil.WriteFile(path, content, 0o600)`. -/
def FS.writeFile (fs : FS) (path : String) (content : FileContent) : FS × Option Error :=
  match fs.denied path with
  | some err => (fs, some err)
  | none =>
    ({ fs with entry := fun p => if p = path then FileEntry.file content else fs.entry p }, none)

/-- Insert an entry in front of the first entry whose key is not smaller. -/
def insertEntry {V : Type} (a : String × V) : List (String × V) → List (String × V)
  | [] => [a]
  | b :: t => if stringLess b.1 a.1 then b :: insertEntry a t else a :: b :: t

/-- The entries of a map in the order of their keys, the order in which `encoding/json`
writes a map. -/
def sortEntries {V : Type} : List (String × V) → List (String × V)
  | [] => []
  | a :: t => insertEntry a (sortEntries t)

/-- Encode the values of a list of entries, stopping at the first error. -/
def marshalEntries {V : Type} (enc : V → Except Error Json) :
    List (String × V) → Except Error (List (String × Json))
  | [] => Except.ok []
  | (k, v) :: t =>
    match enc v with
    | Except.error e => Except.error e
    | Except.ok j =>
      match marshalEntries enc t with
      | Except.error e => Except.error e
      | Except.ok js => Except.ok ((k, j) :: js)

/-- The encoding of a `time.Time` field: the clock reading in the location of the value
and the offset of the location are written. -/
def marshalTime (tc : TimeCodec) (t : Time) : Except Error Json :=
  match tc.format (t.nanos + t.offset * 1000000000) t.offset with
  | some text => Except.ok (Json.str text)
  | none => Except.error "Time.MarshalJSON: year outside of range [0,9999]"

/-- The encoding of a `*client.AWSCredentials`, by the struct tags: no field is omitted. -/
def marshalCredentials (tc : TimeCodec) : Option client.AWSCredentials → Except Error Json
  | none => Except.ok Json.null
  | some c =>
    match marshalTime tc c.Metadata.CreatedAt with
    | Except.error e => Except.error e
    | Except.ok createdAt =>
      match marshalTime tc c.Metadata.ExpireAt with
      | Except.error e => Except.error e
      | Except.ok expireAt =>
        match marshalTime tc c.Metadata.RenewBefore with
        | Except.error e => Except.error e
        | Except.ok renewBefore =>
          Except.ok (Json.obj
            [("metadata", Json.obj
                [("created_at", createdAt), ("expire_at", expireAt),
                 ("renew_before", renewBefore)]),
             ("access_key_id", Json.str c.AccessKeyID),
             ("secret_access_key", Json.str c.SecretAccessKey),
             ("security_token", Json.str c.SecurityToken)])

/-- The encoding of a `map[string]*client.AWSCredentials`: `null` for the nil map. -/
def marshalRoleMap (tc : TimeCodec) : RoleMap → Except Error Json
  | none => Except.ok Json.null
  | some m =>
    match marshalEntries (marshalCredentials tc) (sortEntries m.entries) with
    | Except.error e => Except.error e
    | Except.ok kvs => Except.ok (Json.obj kvs)

/-- The members of the object written for `Current`: `omitempty` drops an empty string. -/
def marshalCurrent (c : Current) : Json :=
  Json.obj
    ((if c.Engine = "" then [] else [("engine", Json.str c.Engine)]) ++
     (if c.Role = "" then [] else [("role", Json.str c.Role)]))

/-- The value tree of `json.MarshalIndent(*c, "", " ")`.  `omitempty` has no effect on
the struct `Current`, and drops `creds` when the map is nil or has no entry.  The
encoder replaces bytes that are not valid UTF-8 by U+FFFD; the strings of the model are
valid UTF-8, which it writes as they are. -/
def marshalState (tc : TimeCodec) (s : State) : Except Error Json :=
  match s.AWSCredentials with
  | none => Except.ok (Json.obj [("current", marshalCurrent s.Current)])
  | some m =>
    if m.entries.isEmpty then Except.ok (Json.obj [("current", marshalCurrent s.Current)])
    else
      match marshalEntries (marshalRoleMap tc) (sortEntries m.entries) with
      | Except.error e => Except.error e
      | Except.ok kvs =>
        Except.ok (Json.obj [("current", marshalCurrent s.Current), ("creds", Json.obj kvs)])

/-- The function `Write`. -/
def Write (tc : TimeCodec) (c : State) (filePath : String) (fs : FS) : FS × Option Error :=
  match marshalState tc c with
  | Except.error err => (fs, some ("marshalling state into json: " ++ err))
  | Except.ok marshalledContent => fs.writeFile filePath (FileContent.json marshalledContent)

/-- Simple case folding of a character whose fold orbit holds an ASCII character: small
letters, the long s and the Kelvin sign go to the capital letter. -/
def foldChar (c : Char) : Char :=
  if c = 'ſ' then 'S'
  else if c = 'K' then 'K'
  else if 'a' ≤ c ∧ c ≤ 'z' then Char.ofNat (c.toNat - 32)
  else c

/-- Whether an object key names the struct field with JSON name `name`: the same
string, or the same string after case folding. -/
def keyMatches (name key : String) : Bool :=
  decide (key = name) || decide (key.data.map foldChar = name.data.map foldChar)

/-- Decode the members of an object one after the other into a value, stopping at the
first error. -/
def decodeMembers {σ : Type} (step : σ → String → Json → Except Error σ) :
    σ → List (String × Json) → Except Error σ
  | st, [] => Except.ok st
  | st, (k, v) :: t =>
    match step st k v with
    | Except.error e => Except.error e
    | Except.ok st' => decodeMembers step st' t

/-- Decode into a string field: `null` leaves the field as it is. -/
def decodeString (old : String) : Json → Except Error String
  | Json.str v => Except.ok v
  | Json.null => Except.ok old
  | _ => Except.error "json: cannot unmarshal into Go value of type string"

/-- Decode into a `time.Time` field through `Time.UnmarshalJSON`: `null` leaves the
field as it is; a timestamp gives the instant at which a clock at the offset read shows
the clock reading read, in a location with that offset. -/
def decodeTime (tc : TimeCodec) (old : Time) : Json → Except Error Time
  | Json.null => Except.ok old
  | Json.str text =>
    match tc.parse text with
    | some (clock, offset) => Except.ok ⟨clock - offset * 1000000000, offset⟩
    | none => Except.error "parsing time: cannot parse"
  | _ => Except.error "Time.UnmarshalJSON: input is not a JSON string"

/-- Decode one member into the struct `Metadata`; an unknown key is skipped. -/
def decodeMetadataMember (tc : TimeCodec) (m : client.Metadata) (key : String) (v : Json) :
    Except Error client.Metadata :=
  if keyMatches "created_at" key then
    match decodeTime tc m.CreatedAt v with
    | Except.error e => Except.error e
    | Except.ok t => Except.ok { m with CreatedAt := t }
  else if keyMatches "expire_at" key then
    match decodeTime tc m.ExpireAt v with
    | Except.error e => Except.error e
    | Except.ok t => Except.ok { m with ExpireAt := t }
  else if keyMatches "renew_before" key then
    match decodeTime tc m.RenewBefore v with
    | Except.error e => Except.error e
    | Except.ok t => Except.ok { m with RenewBefore := t }
  else Except.ok m

/-- Decode into the struct `Metadata`: `null` leaves it as it is. -/
def decodeMetadata (tc : TimeCodec) (old : client.Metadata) : Json → Except Error client.Metadata
  | Json.null => Except.ok old
  | Json.obj kvs => decodeMembers (decodeMetadataMember tc) old kvs
  | _ => Except.error "json: cannot unmarshal into Go value of type struct"

/-- Decode one member into the struct `AWSCredentials`; an unknown key is skipped. -/
def decodeCredentialsMember (tc : TimeCodec) (c : client.AWSCredentials) (key : String)
    (v : Json) : Except Error client.AWSCredentials :=
  if keyMatches "metadata" key then
    match decodeMetadata tc c.Metadata v with
    | Except.error e => Except.error e
    | Except.ok m => Except.ok { c with Metadata := m }
  else if keyMatches "access_key_id" key then
    match decodeString c.AccessKeyID v with
    | Except.error e => Except.error e
    | Except.ok x => Except.ok { c with AccessKeyID := x }
  else if keyMatches "secret_access_key" key then
    match decodeString c.SecretAccessKey v with
    | Except.error e => Except.error e
    | Except.ok x => Except.ok { c with SecretAccessKey := x }
  else if keyMatches "security_token" key then
    match decodeString c.SecurityToken v with
    | Except.error e => Except.error e
    | Except.ok x => Except.ok { c with SecurityToken := x }
  else Except.ok c

/-- Decode into a fresh map element of type `*client.AWSCredentials`: `null` is the nil
pointer, an object is decoded into a new zero struct. -/
def decodeCredentials (tc : TimeCodec) : Json → Except Error (Option client.AWSCredentials)
  | Json.null => Except.ok none
  | Json.obj kvs =>
    match decodeMembers (decodeCredentialsMember tc) client.AWSCredentials.zero kvs with
    | Except.error e => Except.error e
    | Except.ok c => Except.ok (some c)
  | _ => Except.error "json: cannot unmarshal into Go value of type client.AWSCredentials"

/-- Decode the members of an object into a map: each value is decoded into a fresh
element and assigned to its key. -/
def decodeMapMembers {V : Type} (dec : Json → Except Error V) :
    GoMap V → List (String × Json) → Except Error (GoMap V)
  | m, [] => Except.ok m
  | m, (k, v) :: t =>
    match dec v with
    | Except.error e => Except.error e
    | Except.ok x => decodeMapMembers dec (m.set k x) t

/-- Decode into a fresh map element of type `map[string]*client.AWSCredentials`: `null`
is the nil map, an object is decoded into a new map. -/
def decodeRoleMap (tc : TimeCodec) : Json → Except Error RoleMap
  | Json.null => Except.ok none
  | Json.obj kvs =>
    match decodeMapMembers (decodeCredentials tc) GoMap.empty kvs with
    | Except.error e => Except.error e
    | Except.ok m => Except.ok (some m)
  | _ => Except.error "json: cannot unmarshal into Go value of type map"

/-- Decode one member into the struct `Current`; an unknown key is skipped. -/
def decodeCurrentMember (c : Current) (key : String) (v : Json) : Except Error Current :=
  if keyMatches "engine" key then
    match decodeString c.Engine v with
    | Except.error e => Except.error e
    | Except.ok x => Except.ok { c with Engine := x }
  else if keyMatches "role" key then
    match decodeString c.Role v with
    | Except.error e => Except.error e
    | Except.ok x => Except.ok { c with Role := x }
  else Except.ok c

/-- Decode one member into the struct `State`; an unknown key is skipped.  `creds` set to
`null` makes the map nil; an object is decoded into the map the field holds, made when
the field is nil. -/
def decodeStateMember (tc : TimeCodec) (s : State) (key : String) (v : Json) :
    Except Error State :=
  if keyMatches "current" key then
    match v with
    | Json.null => Except.ok s
    | Json.obj kvs =>
      match decodeMembers decodeCurrentMember s.Current kvs with
      | Except.error e => Except.error e
      | Except.ok c => Except.ok { s with Current := c }
    | _ => Except.error "json: cannot unmarshal into Go value of type struct"
  else if keyMatches "creds" key then
    match v with
    | Json.null => Except.ok { s with AWSCredentials := none }
    | Json.obj kvs =>
      match decodeMapMembers (decodeRoleMap tc)
          (match s.AWSCredentials with
           | none => GoMap.empty
           | some m => m) kvs with
      | Except.error e => Except.error e
      | Except.ok m => Except.ok { s with AWSCredentials := some m }
    | _ => Except.error "json: cannot unmarshal into Go value of type map"
  else Except.ok s

/-- The call `json.Unmarshal(byteValue, s)` on `s := &State{}`, by the value tree of the
text: `null` leaves the zero State, an object is decoded member by member, and any
other value does not fit the struct. -/
def unmarshalState (tc : TimeCodec) : Json → Except Error State
  | Json.null => Except.ok State.zero
  | Json.obj kvs => decodeMembers (decodeStateMember tc) State.zero kvs
  | _ => Except.error "json: cannot unmarshal into Go value of type state.State"

/-- The function `Read`: the State pointer and the error it returns. -/
def Read (tc : TimeCodec) (filePath : String) (fs : FS) : Option State × Option Error :=
  match fs.entry filePath with
  | FileEntry.absent => (some State.zero, none)
  | FileEntry.unreadable err => (some State.zero, some ("opening state file: " ++ err))
  | FileEntry.file FileContent.garbage =>
    (none, some "error parsing vac state file: invalid character")
  | FileEntry.file (FileContent.json j) =>
    match unmarshalState tc j with
    | Except.error err => (none, some ("error parsing vac state file: " ++ err))
    | Except.ok s => (some s, none)

/-! ## Sequences of State Store operations -/

/-- A call of one of the four mutating methods of `State`. -/
inductive Op where
  | SetCurrentEngine (engine : String)
  | SetCurrentRole (role : String)
  | SetAWSCredentials (engine role : String) (creds : Option client.AWSCredentials)
  | SetCurrentAWSCredentials (creds : Option client.AWSCredentials)

/-- Make one call on a State. -/
def State.apply (s : State) : Op → Outcome State
  | Op.SetCurrentEngine engine => Outcome.ret (s.SetCurrentEngine engine)
  | Op.SetCurrentRole role => Outcome.ret (s.SetCurrentRole role)
  | Op.SetAWSCredentials engine role creds => s.SetAWSCredentials engine role creds
  | Op.SetCurrentAWSCredentials creds => s.SetCurrentAWSCredentials creds

/-- Make the calls of a list one after the other; a panic ends the run. -/
def State.run : State → List Op → Outcome State
  | s, [] => Outcome.ret s
  | s, op :: ops =>
    match s.apply op with
    | Outcome.ret s' => State.run s' ops
    | Outcome.fault msg => Outcome.fault msg

/-- Every engine key is bound to a role mapping that is not nil and has an entry. -/
def State.NoEmptyRoleMap (s : State) : Prop :=
  ∀ e v, mapGet? s.AWSCredentials e = some v → ∃ inner : GoMap (Option client.AWSCredentials),
    v = some inner ∧ inner.keys ≠ []

/-- The number that a run of digits denotes after the accumulator `x`: the value that
the loop of `leadingInt` computes when nothing overflows. -/
def digitsValue (x : Nat) (ds : List Char) : Nat :=
  ds.foldl (fun acc c => acc * 10 + (c.toNat - '0'.toNat)) x

/-- Whether a key of the response data is absent or bound to a string. -/
def stringOrAbsent (data : GoMap Json) (key : String) : Bool :=
  match data.get? key with
  | none => true
  | some (Json.str _) => true
  | some _ => false

/-- The shape of the data of a write response to `/{engine}/sts/{role}`: no data map, or
a data map in which `access_key`, `secret_key` and `security_token`, when present, are
strings. -/
def Secret.fieldsAreStrings (out : Secret) : Bool :=
  match out.Data with
  | none => true
  | some data =>
    stringOrAbsent data "access_key" && stringOrAbsent data "secret_key" &&
      stringOrAbsent data "security_token"

/-- The string bound to a key of the response data, and the empty string when there is
no data map or no such key. -/
def fieldOrEmpty (data : Option (GoMap Json)) (key : String) : String :=
  match mapGet? data key with
  | some (Json.str v) => v
  | _ => ""

/-- A client whose write call answers the given response and no error. -/
def clientAnswering (out : Option Secret) : Client :=
  ⟨fun _ => (out, none), fun _ _ => (out, none)⟩

/-- The data map of the worked example: the three fields of an STS answer. -/
def exampleData : GoMap Json :=
  ⟨[("access_key", Json.str "AKIA1"), ("secret_key", Json.str "SK1"),
    ("security_token", Json.str "ST1")], by decide⟩

/-- The data map of a list answer with the two role names `admin` and `reader`. -/
def exampleKeys : GoMap Json :=
  ⟨[("keys", Json.arr [Json.str "admin", Json.str "reader"])], by decide⟩

/-- The instant of the worked examples: midnight of January 1, 2026, UTC. -/
def exampleNow : Time := ⟨63902822400000000000, 0⟩

/-- A codec for worked examples.  It writes and reads five values: the zero instant,
`exampleNow` and one hour after it, all in UTC, and the clock readings that a clock
thirty seconds ahead of UTC shows at `exampleNow` and one hour after it, whose texts
have the offset `+00:00`. -/
def exampleCodec : TimeCodec where
  format := fun clock offset =>
    if clock = 0 ∧ offset = 0 then some "0001-01-01T00:00:00Z"
    else if clock = 63902822400000000000 ∧ offset = 0 then some "2026-01-01T00:00:00Z"
    else if clock = 63902826000000000000 ∧ offset = 0 then some "2026-01-01T01:00:00Z"
    else if clock = 63902822430000000000 ∧ offset = 30 then some "2026-01-01T00:00:30+00:00"
    else if clock = 63902826030000000000 ∧ offset = 30 then some "2026-01-01T01:00:30+00:00"
    else none
  parse := fun text =>
    if text = "0001-01-01T00:00:00Z" then some (0, 0)
    else if text = "2026-01-01T00:00:00Z" then some (63902822400000000000, 0)
    else if text = "2026-01-01T01:00:00Z" then some (63902826000000000000, 0)
    else if text = "2026-01-01T00:00:30+00:00" then some (63902822430000000000, 0)
    else if text = "2026-01-01T01:00:30+00:00" then some (63902826030000000000, 0)
    else none
  parse_format := by
    intro clock offset text h
    dsimp only at h ⊢
    split at h
    · rename_i hc
      obtain ⟨rfl, rfl⟩ := hc
      cases h
      rfl
    · split at h
      · rename_i hc
        obtain ⟨rfl, rfl⟩ := hc
        cases h
        rfl
      · split at h
        · rename_i hc
          obtain ⟨rfl, rfl⟩ := hc
          cases h
          rfl
        · split at h
          · rename_i hc
            obtain ⟨rfl, rfl⟩ := hc
            cases h
            rfl
          · split at h
            · rename_i hc
              obtain ⟨rfl, rfl⟩ := hc
              cases h
              rfl
            · exact absurd h (by simp)

/-- Whether the offset of the location of a `time.Time` is a whole number of minutes. -/
def Time.wholeMinutes (t : Time) : Bool := decide (t.offset % 60 = 0)

/-- Whether the three timestamps of a credential, if there is one, have offsets of whole
minutes. -/
def credentialsInWholeMinutes : Option client.AWSCredentials → Bool
  | none => true
  | some c =>
    c.Metadata.CreatedAt.wholeMinutes && c.Metadata.ExpireAt.wholeMinutes &&
      c.Metadata.RenewBefore.wholeMinutes

/-- Whether every credential of a role mapping has offsets of whole minutes. -/
def roleMapInWholeMinutes : RoleMap → Bool
  | none => true
  | some m => m.entries.all (fun kv => credentialsInWholeMinutes kv.2)

/-- Whether every timestamp cached in a State has an offset of whole minutes. -/
def State.zonesInWholeMinutes (s : State) : Bool :=
  match s.AWSCredentials with
  | none => true
  | some m => m.entries.all (fun kv => roleMapInWholeMinutes kv.2)

/-- The State of the worked example for a location thirty seconds ahead of UTC: one
credential, issued at `exampleNow` for one hour by a process with that location. -/
def offsetState : State :=
  ⟨⟨"aws-dev", "reader"⟩,
    some ⟨[("aws-dev", some ⟨[("reader",
      some ⟨⟨⟨63902822400000000000, 30⟩, ⟨63902826000000000000, 30⟩, Time.zero⟩,
        "AKIA1", "SK1", "ST1"⟩)], by decide⟩)],
      by decide⟩⟩

/-- A file system without files in which every path can be written. -/
def emptyFS : FS := ⟨fun _ => FileEntry.absent, fun _ => none⟩

/-- The State of the worked example: one credential, issued at `exampleNow` for one
hour, cached for the selected engine and role. -/
def exampleState : State :=
  ⟨⟨"aws-dev", "reader"⟩,
    some ⟨[("aws-dev", some ⟨[("reader",
      some ⟨⟨exampleNow, Time.Add exampleNow 3600000000000, Time.zero⟩, "AKIA1", "SK1", "ST1"⟩)],
      by decide⟩)],
      by decide⟩⟩

/-- A file system in which every path names a file with the given JSON text. -/
def fsWith (j : Json) : FS :=
  ⟨fun _ => FileEntry.file (FileContent.json j), fun _ => none⟩

/-! ## `ListAWSSecretEngines` -/

namespace strings

/-- The function `strings.TrimSuffix`: the string without the suffix when it ends with
it, and the string itself otherwise. -/
def TrimSuffix (s suffix : String) : String :=
  if suffix.data.isSuffixOf s.data then
    String.mk (s.data.take (s.data.length - suffix.data.length))
  else s

end strings

/-- The field `Type` of `vault.MountOutput`, the one that the client reads. -/
structure MountOutput where
  type : String
  deriving DecidableEq, Repr

namespace client

/-- The loop `for mountName, mountSpec := range mounts` over the entries that remain:
a mount of type `aws` adds its name without the suffix `/`; reading the type through
a nil descriptor pointer panics. -/
def appendEngines : List String → List (String × Option MountOutput) → Outcome (List String)
  | engines, [] => Outcome.ret engines
  | _, (_, none) :: _ => Outcome.fault "invalid memory address or nil pointer dereference"
  | engines, (mountName, some mountSpec) :: rest =>
    if mountSpec.type = "aws" then
      appendEngines (engines ++ [strings.TrimSuffix mountName "/"]) rest
    else appendEngines engines rest

/-- The method `ListAWSSecretEngines`, on the answer of `c.Sys().ListMounts()`: the
mount table, a map from mount path to descriptor pointer, and an error. -/
def ListAWSSecretEngines (listMounts : Option (GoMap (Option MountOutput)) × Option Error) :
    Outcome (List String × Option Error) :=
  match listMounts with
  | (_, some err) => Outcome.ret ([], some err)
  | (mounts, none) =>
    match appendEngines []
        (match mounts with
         | none => []
         | some g => g.entries) with
    | Outcome.ret engines => Outcome.ret (engines, none)
    | Outcome.fault msg => Outcome.fault msg

end client

/-- The entries of a mount table whose descriptor has the type `aws`, in the order in
which `range` visits them. -/
def awsMounts (mounts : Option (GoMap (Option MountOutput))) :
    List (String × Option MountOutput) :=
  (match mounts with
   | none => []
   | some g => g.entries).filter
    (fun kv =>
      match kv.2 with
      | some mountSpec => decide (mountSpec.type = "aws")
      | none => false)

/-- Whether no descriptor pointer of a mount table is nil. -/
def descriptorsPresent (mounts : Option (GoMap (Option MountOutput))) : Bool :=
  (match mounts with
   | none => []
   | some g => g.entries).all (fun kv => kv.2.isSome)

/-- A mount table with a key-value mount, an AWS mount and an AWS mount whose path ends
in two separators. -/
def exampleMounts : GoMap (Option MountOutput) :=
  ⟨[("secret/", some ⟨"kv"⟩), ("aws-dev/", some ⟨"aws"⟩), ("aws//", some ⟨"aws"⟩)], by decide⟩

/-! ## Runs of store operations with names -/

/-- Whether a call stores credentials, if at all, under an engine and a role that are
not empty: the arguments of `SetAWSCredentials`, the selection of the State for
`SetCurrentAWSCredentials`. -/
def Op.named (s : State) : Op → Bool
  | Op.SetCurrentEngine _ => true
  | Op.SetCurrentRole _ => true
  | Op.SetAWSCredentials engine role _ => decide (engine ≠ "") && decide (role ≠ "")
  | Op.SetCurrentAWSCredentials _ =>
    decide (s.Current.Engine ≠ "") && decide (s.Current.Role ≠ "")

/-- Whether every call of a run from the State is named when it is made. -/
def State.allNamed : State → List Op → Bool
  | _, [] => true
  | s, op :: ops =>
    op.named s &&
      match s.apply op with
      | Outcome.ret s' => State.allNamed s' ops
      | Outcome.fault _ => true

/-- The file system of the worked example for a nil role mapping: every path names the
state file `{"creds": {"aws": null}, "current": {"engine": "aws", "role": "reader"}}`. -/
def nilRoleMapFS : FS :=
  fsWith (Json.obj
    [("current", Json.obj [("engine", Json.str "aws"), ("role", Json.str "reader")]),
     ("creds", Json.obj [("aws", Json.null)])])

/-- Every engine key of the creds mapping and every role key under it is a string that
is not empty. -/
def State.NamedKeys (s : State) : Prop :=
  ∀ e rm, mapGet? s.AWSCredentials e = some rm →
    e ≠ "" ∧ ∀ r, (mapGet? rm r).isSome = true → r ≠ ""

/-! ## Lemmas on maps -/

namespace GoMap

variable {V : Type}

theorem upsertEntries_keys (l : List (String × V)) (k : String) (v : V) :
    (upsertEntries l k v).map Prod.fst =
      if k ∈ l.map Prod.fst then l.map Prod.fst else l.map Prod.fst ++ [k] := by
  induction l with
  | nil => simp [upsertEntries]
  | cons hd t ih =>
    obtain ⟨k', v'⟩ := hd
    by_cases h : k' = k
    · subst h
      simp [upsertEntries]
    · have h' : ¬ k = k' := fun e => h e.symm
      simp only [upsertEntries, if_neg h, List.map_cons, ih, List.mem_cons, h', false_or]
      split <;> simp

theorem lookupEntries_upsert_self (l : List (String × V)) (k : String) (v : V) :
    lookupEntries (upsertEntries l k v) k = some v := by
  induction l with
  | nil => simp [upsertEntries, lookupEntries]
  | cons hd t ih =>
    obtain ⟨k', v'⟩ := hd
    by_cases h : k' = k
    · simp [upsertEntries, lookupEntries, h]
    · simp [upsertEntries, lookupEntries, h, ih]

theorem lookupEntries_upsert_of_ne (l : List (String × V)) {k k' : String} (v : V)
    (h : k' ≠ k) : lookupEntries (upsertEntries l k v) k' = lookupEntries l k' := by
  induction l with
  | nil =>
    have h' : ¬ k = k' := fun e => h e.symm
    simp [upsertEntries, lookupEntries, h']
  | cons hd t ih =>
    obtain ⟨k₀, v₀⟩ := hd
    by_cases h₀ : k₀ = k
    · subst h₀
      have h' : ¬ k₀ = k' := fun e => h e.symm
      simp [upsertEntries, lookupEntries, h']
    · by_cases h₁ : k₀ = k'
      · subst h₁
        simp [upsertEntries, lookupEntries, h₀]
      · simp [upsertEntries, lookupEntries, h₀, h₁, ih]

theorem lookupEntries_isSome (l : List (String × V)) (k : String) :
    (lookupEntries l k).isSome = true ↔ k ∈ l.map Prod.fst := by
  induction l with
  | nil => simp [lookupEntries]
  | cons hd t ih =>
    obtain ⟨k₀, v₀⟩ := hd
    by_cases h₀ : k₀ = k
    · simp [lookupEntries, h₀]
    · have h' : ¬ k = k₀ := fun e => h₀ e.symm
      simp only [lookupEntries, if_neg h₀, ih, List.map_cons, List.mem_cons, h', false_or]

theorem get?_set_self (m : GoMap V) (k : String) (v : V) : (m.set k v).get? k = some v :=
  lookupEntries_upsert_self m.entries k v

theorem get?_set_of_ne (m : GoMap V) {k k' : String} (v : V) (h : k' ≠ k) :
    (m.set k v).get? k' = m.get? k' :=
  lookupEntries_upsert_of_ne m.entries v h

theorem mem_keys_iff (m : GoMap V) (k : String) : k ∈ m.keys ↔ (m.get? k).isSome = true :=
  (lookupEntries_isSome m.entries k).symm

theorem mem_keys_set (m : GoMap V) (k k' : String) (v : V) :
    k' ∈ (m.set k v).keys ↔ k' = k ∨ k' ∈ m.keys := by
  unfold keys set
  simp only [upsertEntries_keys]
  split
  · rename_i hk
    constructor
    · intro h
      exact Or.inr h
    · rintro (h | h)
      · exact h ▸ hk
      · exact h
  · simp [or_comm]

theorem keys_nodup (m : GoMap V) : m.keys.Nodup := m.nodup

end GoMap

theorem mapKeys_nodup {V : Type} (m : Option (GoMap V)) : (mapKeys m).Nodup := by
  cases m with
  | none => exact List.nodup_nil
  | some g => exact g.nodup

theorem mem_mapKeys_iff {V : Type} (m : Option (GoMap V)) (k : String) :
    k ∈ mapKeys m ↔ (mapGet? m k).isSome = true := by
  cases m with
  | none => simp [mapKeys, mapGet?]
  | some g => exact g.mem_keys_iff k

/-! ## Lemmas on `sort.Strings` -/

theorem stringLess_iff (a b : String) : stringLess a b = true ↔ a < b := by
  unfold stringLess
  simp [String.lt_iff_toList_lt]

theorem insertString_perm (a : String) (l : List String) : (insertString a l).Perm (a :: l) := by
  induction l with
  | nil => exact List.Perm.refl _
  | cons b t ih =>
    unfold insertString
    split
    · exact ((List.Perm.cons b ih).trans (List.Perm.swap a b t))
    · exact List.Perm.refl _

theorem sortStrings_perm (l : List String) : (sortStrings l).Perm l := by
  induction l with
  | nil => exact List.Perm.refl _
  | cons a t ih => exact (insertString_perm a _).trans (List.Perm.cons a ih)

theorem mem_sortStrings (l : List String) (a : String) : a ∈ sortStrings l ↔ a ∈ l :=
  (sortStrings_perm l).mem_iff

theorem insertString_sorted (a : String) (l : List String) (h : l.Sorted (· ≤ ·)) :
    (insertString a l).Sorted (· ≤ ·) := by
  induction l with
  | nil => simp [insertString]
  | cons b t ih =>
    have hb := List.sorted_cons.mp h
    unfold insertString
    split
    · rename_i hlt
      have hlt' : b < a := (stringLess_iff b a).mp hlt
      refine List.sorted_cons.mpr ⟨?_, ih hb.2⟩
      intro x hx
      rcases List.mem_cons.mp ((insertString_perm a t).mem_iff.mp hx) with hxa | hxt
      · exact hxa ▸ le_of_lt hlt'
      · exact hb.1 x hxt
    · rename_i hlt
      have hge : a ≤ b := by
        have : ¬ b < a := fun hc => hlt ((stringLess_iff b a).mpr hc)
        exact not_lt.mp this
      refine List.sorted_cons.mpr ⟨?_, h⟩
      intro x hx
      rcases List.mem_cons.mp hx with hxb | hxt
      · exact hxb ▸ hge
      · exact le_trans hge (hb.1 x hxt)

theorem sortStrings_sorted (l : List String) : (sortStrings l).Sorted (· ≤ ·) := by
  induction l with
  | nil => simp [sortStrings]
  | cons a t ih => exact insertString_sorted a _ ih

theorem sortStrings_strict (l : List String) (h : l.Nodup) : (sortStrings l).Sorted (· < ·) :=
  (sortStrings_sorted l).lt_of_le ((sortStrings_perm l).nodup_iff.mpr h)

theorem sortStrings_eq_of_perm {l₁ l₂ : List String} (h : l₁.Perm l₂) :
    sortStrings l₁ = sortStrings l₂ :=
  List.eq_of_perm_of_sorted (((sortStrings_perm l₁).trans h).trans (sortStrings_perm l₂).symm)
    (sortStrings_sorted l₁) (sortStrings_sorted l₂)

/-! ## Lemmas on the State Store -/

theorem State.outer_get? (s : State) (e : String) :
    s.outer.get? e = mapGet? s.AWSCredentials e := by
  unfold State.outer mapGet?
  cases s.AWSCredentials <;> rfl

theorem SetAWSCredentials_of_absent (s : State) (e r : String) (c : Option client.AWSCredentials)
    (h : mapGet? s.AWSCredentials e = none) :
    s.SetAWSCredentials e r c = Outcome.ret
      ⟨s.Current, some ((s.outer.set e (some GoMap.empty)).set e (some (GoMap.empty.set r c)))⟩ := by
  have h' : s.outer.get? e = none := by rw [State.outer_get?, h]
  unfold State.SetAWSCredentials
  simp only [h', GoMap.get?_set_self]

theorem SetAWSCredentials_of_present (s : State) (e r : String) (c : Option client.AWSCredentials)
    (inner : GoMap (Option client.AWSCredentials))
    (h : mapGet? s.AWSCredentials e = some (some inner)) :
    s.SetAWSCredentials e r c = Outcome.ret
      ⟨s.Current, some (s.outer.set e (some (inner.set r c)))⟩ := by
  have h' : s.outer.get? e = some (some inner) := by rw [State.outer_get?, h]
  unfold State.SetAWSCredentials
  simp only [h']

theorem SetAWSCredentials_of_nil (s : State) (e r : String) (c : Option client.AWSCredentials)
    (h : mapGet? s.AWSCredentials e = some none) :
    s.SetAWSCredentials e r c = Outcome.fault "assignment to entry in nil map" := by
  have h' : s.outer.get? e = some none := by rw [State.outer_get?, h]
  unfold State.SetAWSCredentials
  simp only [h']

/-- What `SetAWSCredentials` does when it returns: the selection is kept and the creds
mapping is the old one with the role mapping of the engine replaced by `inner'`, which
is the previous role mapping of the engine (empty when there was none) with
`role` bound to `creds`. -/
theorem SetAWSCredentials_ret (s s' : State) (e r : String) (c : Option client.AWSCredentials)
    (h : s.SetAWSCredentials e r c = Outcome.ret s') :
    ∃ (m : GoMap RoleMap) (inner : GoMap (Option client.AWSCredentials)),
      s' = ⟨s.Current, some (m.set e (some (inner.set r c)))⟩ ∧
      (∀ e', e' ≠ e → m.get? e' = mapGet? s.AWSCredentials e') ∧
      (∀ r', r' ≠ r → inner.get? r' = mapGet? (s.rolesOf e) r') ∧
      (∀ e', e' ∈ m.keys ↔ e' = e ∨ e' ∈ mapKeys s.AWSCredentials) := by
  cases hg : mapGet? s.AWSCredentials e with
  | none =>
    rw [SetAWSCredentials_of_absent s e r c hg] at h
    refine ⟨s.outer.set e (some GoMap.empty), GoMap.empty, (Outcome.ret.inj h).symm, ?_, ?_, ?_⟩
    · intro e' he'
      rw [GoMap.get?_set_of_ne _ _ he', State.outer_get?]
    · intro r' _
      simp only [State.rolesOf, hg]
      rfl
    · intro e'
      rw [GoMap.mem_keys_set, GoMap.mem_keys_iff, State.outer_get?, ← mem_mapKeys_iff]
  | some v =>
    cases v with
    | none =>
      rw [SetAWSCredentials_of_nil s e r c hg] at h
      exact absurd h (by simp)
    | some inner =>
      rw [SetAWSCredentials_of_present s e r c inner hg] at h
      refine ⟨s.outer, inner, (Outcome.ret.inj h).symm, ?_, ?_, ?_⟩
      · intro e' _
        exact State.outer_get? s e'
      · intro r' _
        simp only [State.rolesOf, hg]
        rfl
      · intro e'
        rw [GoMap.mem_keys_iff, State.outer_get?, ← mem_mapKeys_iff]
        constructor
        · exact Or.inr
        · rintro (h | h)
          · subst h
            rw [mem_mapKeys_iff, hg]
            rfl
          · exact h

theorem SetAWSCredentials_returns_iff (s : State) (e r : String)
    (c : Option client.AWSCredentials) :
    (∃ s', s.SetAWSCredentials e r c = Outcome.ret s') ↔
      mapGet? s.AWSCredentials e ≠ some none := by
  cases hg : mapGet? s.AWSCredentials e with
  | none => simp [SetAWSCredentials_of_absent s e r c hg]
  | some v =>
    cases v with
    | none => simp [SetAWSCredentials_of_nil s e r c hg]
    | some inner => simp [SetAWSCredentials_of_present s e r c inner hg]

theorem SetAWSCredentials_ret_get (s s' : State) (e r : String)
    (c : Option client.AWSCredentials) (h : s.SetAWSCredentials e r c = Outcome.ret s') :
    s'.GetAWSCredentials e r = c := by
  obtain ⟨m, inner, rfl, -, -, -⟩ := SetAWSCredentials_ret s s' e r c h
  simp only [State.GetAWSCredentials, GoMap.get?_set_self, mapGet?]

theorem SetAWSCredentials_ret_listed (s s' : State) (e r : String)
    (c : Option client.AWSCredentials) (h : s.SetAWSCredentials e r c = Outcome.ret s') :
    e ∈ s'.GetCachedEngines ∧ r ∈ s'.GetCachedEngineRoles e := by
  obtain ⟨m, inner, rfl, -, -, -⟩ := SetAWSCredentials_ret s s' e r c h
  constructor
  · simp only [State.GetCachedEngines, mem_sortStrings, mapKeys, GoMap.mem_keys_set, true_or]
  · simp only [State.GetCachedEngineRoles, State.rolesOf, mem_sortStrings, mapKeys, mapGet?,
      GoMap.get?_set_self, GoMap.mem_keys_set, true_or]

theorem NoEmptyRoleMap_zero : State.zero.NoEmptyRoleMap := by
  intro e v h
  simp [State.zero, mapGet?] at h

theorem NoEmptyRoleMap_SetAWSCredentials (s s' : State) (e r : String)
    (c : Option client.AWSCredentials) (hs : s.NoEmptyRoleMap)
    (h : s.SetAWSCredentials e r c = Outcome.ret s') : s'.NoEmptyRoleMap := by
  obtain ⟨m, inner, rfl, hm, -, -⟩ := SetAWSCredentials_ret s s' e r c h
  intro e' v hv
  simp only [mapGet?] at hv
  by_cases he : e' = e
  · subst he
    rw [GoMap.get?_set_self] at hv
    refine ⟨inner.set r c, (Option.some.inj hv).symm, ?_⟩
    intro hnil
    have hr : r ∈ (inner.set r c).keys := (GoMap.mem_keys_set inner r r c).mpr (Or.inl rfl)
    rw [hnil] at hr
    exact absurd hr (List.not_mem_nil r)
  · rw [GoMap.get?_set_of_ne _ _ he, hm e' he] at hv
    exact hs e' v hv

theorem NoEmptyRoleMap_apply (s s' : State) (op : Op) (hs : s.NoEmptyRoleMap)
    (h : s.apply op = Outcome.ret s') : s'.NoEmptyRoleMap := by
  cases op with
  | SetCurrentEngine engine =>
    have : s' = s.SetCurrentEngine engine := (Outcome.ret.inj h).symm
    subst this
    exact hs
  | SetCurrentRole role =>
    have : s' = s.SetCurrentRole role := (Outcome.ret.inj h).symm
    subst this
    exact hs
  | SetAWSCredentials engine role creds =>
    exact NoEmptyRoleMap_SetAWSCredentials s s' engine role creds hs h
  | SetCurrentAWSCredentials creds =>
    exact NoEmptyRoleMap_SetAWSCredentials s s' _ _ creds hs h

theorem NoEmptyRoleMap_run (ops : List Op) (s s' : State) (hs : s.NoEmptyRoleMap)
    (h : s.run ops = Outcome.ret s') : s'.NoEmptyRoleMap := by
  induction ops generalizing s with
  | nil =>
    have : s' = s := (Outcome.ret.inj h).symm
    subst this
    exact hs
  | cons op ops ih =>
    unfold State.run at h
    cases hop : s.apply op with
    | ret s₁ =>
      rw [hop] at h
      exact ih s₁ (NoEmptyRoleMap_apply s s₁ op hs hop) h
    | fault msg =>
      rw [hop] at h
      exact absurd h (by simp)

theorem mem_GetCachedEngines_iff (s : State) (e : String) :
    e ∈ s.GetCachedEngines ↔ (mapGet? s.AWSCredentials e).isSome = true := by
  unfold State.GetCachedEngines
  rw [mem_sortStrings, mem_mapKeys_iff]

theorem GetCachedEngineRoles_ne_nil_iff (s : State) (e : String) :
    s.GetCachedEngineRoles e ≠ [] ↔ mapKeys (s.rolesOf e) ≠ [] := by
  unfold State.GetCachedEngineRoles
  constructor
  · intro h hk
    rw [hk] at h
    exact h rfl
  · intro h hk
    apply h
    have := (sortStrings_perm (mapKeys (s.rolesOf e))).symm
    rw [hk] at this
    exact List.Perm.eq_nil this

/-! ## The State Store: claims C1 to C6 -/

/-- C1 (failing input).  A state file may bind an engine to `null`; `Read` accepts it and
gives a State in which the engine is a key bound to the nil role mapping.  On that State
`SetAWSCredentials` for the engine does not store the credentials: the assignment
into the nil inner map panics, so no lookup of the pair can return them. -/
theorem SetAWSCredentials_faults_on_nil_role_map :
    ∃ s : State,
      Read exampleCodec "state.json"
          (fsWith (Json.obj [("creds", Json.obj [("aws", Json.null)])])) = (some s, none) ∧
      s.SetAWSCredentials "aws" "reader" (some client.AWSCredentials.zero) =
        Outcome.fault "assignment to entry in nil map" :=
  ⟨_, rfl, rfl⟩

/-- C2.  For every State and every engine, the engines listed by `GetCachedEngines` and
the roles listed by `GetCachedEngineRoles` are in strictly ascending lexicographic
order. -/
theorem cached_listings_ascending (s : State) (e : String) :
    (s.GetCachedEngines).Sorted (· < ·) ∧ (s.GetCachedEngineRoles e).Sorted (· < ·) :=
  ⟨sortStrings_strict _ (mapKeys_nodup _), sortStrings_strict _ (mapKeys_nodup _)⟩

/-- C3 (failing input).  On the State that `Read` gives for a file binding the engine
`aws` to `null`, `GetCachedEngineRoles` lists no role for `aws`, and `SetAWSCredentials`
for `aws` panics instead of adding one: the role is not listed after the call. -/
theorem role_not_listed_on_nil_role_map :
    ∃ s : State,
      Read exampleCodec "state.json"
          (fsWith (Json.obj [("creds", Json.obj [("aws", Json.null)])])) = (some s, none) ∧
      s.GetCachedEngineRoles "aws" = [] ∧
      ∀ s' : State,
        s.SetAWSCredentials "aws" "reader" (some client.AWSCredentials.zero) ≠ Outcome.ret s' :=
  ⟨_, rfl, rfl, fun _ h => Outcome.noConfusion h⟩

/-- C4 (counterexample).  A state file may bind an engine to the empty object; in the
State that `Read` gives, the engine is listed by `GetCachedEngines` although
`GetCachedEngineRoles` lists no role for it. -/
theorem cached_engine_without_role :
    ∃ s : State,
      Read exampleCodec "state.json"
          (fsWith (Json.obj [("creds", Json.obj [("aws", Json.obj [])])])) = (some s, none) ∧
      ¬ ("aws" ∈ s.GetCachedEngines ↔ s.GetCachedEngineRoles "aws" ≠ []) :=
  ⟨_, rfl, by decide⟩

/-- C4 (amended).  For every State, `GetCachedEngines` lists exactly the keys of the
creds mapping, and every engine for which `GetCachedEngineRoles` lists a role is among
them; for a State built from the empty State by store operations, an engine is listed
if and only if `GetCachedEngineRoles` lists a role for it. -/
theorem cached_engines_are_the_keys (s : State) (e : String) :
    (e ∈ s.GetCachedEngines ↔ (mapGet? s.AWSCredentials e).isSome = true) ∧
    (s.GetCachedEngineRoles e ≠ [] → e ∈ s.GetCachedEngines) ∧
    (∀ ops : List Op, State.zero.run ops = Outcome.ret s →
      (e ∈ s.GetCachedEngines ↔ s.GetCachedEngineRoles e ≠ [])) := by
  have hroles : s.GetCachedEngineRoles e ≠ [] → e ∈ s.GetCachedEngines := by
    intro h
    rw [mem_GetCachedEngines_iff]
    rw [GetCachedEngineRoles_ne_nil_iff] at h
    cases hg : mapGet? s.AWSCredentials e with
    | none =>
      simp only [State.rolesOf, hg, mapKeys] at h
      exact absurd rfl h
    | some v => rfl
  refine ⟨mem_GetCachedEngines_iff s e, hroles, ?_⟩
  intro ops hops
  refine ⟨?_, hroles⟩
  intro he
  rw [mem_GetCachedEngines_iff] at he
  rw [GetCachedEngineRoles_ne_nil_iff]
  cases hg : mapGet? s.AWSCredentials e with
  | none =>
    rw [hg] at he
    exact absurd he (by simp)
  | some v =>
    obtain ⟨inner, rfl, hk⟩ := NoEmptyRoleMap_run ops State.zero s NoEmptyRoleMap_zero hops e v hg
    simpa only [State.rolesOf, hg, mapKeys] using hk

/-- C4 (witness): after one insertion into the empty State the engine is listed. -/
theorem cached_engines_are_the_keys_witness :
    ∃ s : State,
      State.zero.run [Op.SetAWSCredentials "aws" "reader" none] = Outcome.ret s ∧
      s.GetCachedEngineRoles "aws" ≠ [] ∧ "aws" ∈ s.GetCachedEngines :=
  ⟨_, rfl, by decide,
    (cached_engines_are_the_keys _ "aws").2.1 (by decide)⟩

/-- C6.  `SetCurrentEngine` and `SetCurrentRole` leave the creds mapping as it is, and a
call of `SetAWSCredentials` that returns leaves the current engine and role as
they are. -/
theorem selection_and_cache_orthogonal (s : State) (x e r : String)
    (c : Option client.AWSCredentials) :
    (s.SetCurrentEngine x).AWSCredentials = s.AWSCredentials ∧
    (s.SetCurrentRole x).AWSCredentials = s.AWSCredentials ∧
    ∀ s' : State, s.SetAWSCredentials e r c = Outcome.ret s' → s'.Current = s.Current := by
  refine ⟨rfl, rfl, ?_⟩
  intro s' h
  obtain ⟨m, inner, rfl, -, -, -⟩ := SetAWSCredentials_ret s s' e r c h
  rfl

/-- C6 (witness): an insertion into a State with a selection keeps the selection. -/
theorem selection_and_cache_orthogonal_witness :
    ∃ s' : State,
      (State.mk ⟨"aws", "reader"⟩ none).SetAWSCredentials "aws-dev" "admin" none =
        Outcome.ret s' ∧
      s'.Current = ⟨"aws", "reader"⟩ :=
  ⟨_, rfl,
    (selection_and_cache_orthogonal (State.mk ⟨"aws", "reader"⟩ none) "" "aws-dev" "admin"
      none).2.2 _ rfl⟩

/-! ## Lemmas on `fmt.Sprintf("%ds", n)` and `time.ParseDuration` -/

theorem digitChar_spec (d : Nat) (h : d < 10) :
    isDigit (digitChar d) = true ∧ (digitChar d).toNat - '0'.toNat = d := by
  interval_cases d <;> exact ⟨by decide, by decide⟩

theorem digitsValue_append (x : Nat) (ds : List Char) (c : Char) :
    digitsValue x (ds ++ [c]) = digitsValue x ds * 10 + (c.toNat - '0'.toNat) := by
  simp [digitsValue, List.foldl_append]

theorem le_digitsValue (ds : List Char) (x : Nat) : x ≤ digitsValue x ds := by
  induction ds generalizing x with
  | nil => exact Nat.le_refl x
  | cons c t ih =>
    have h := ih (x * 10 + (c.toNat - '0'.toNat))
    have : digitsValue x (c :: t) = digitsValue (x * 10 + (c.toNat - '0'.toNat)) t := rfl
    omega

theorem decimalAux_spec (fuel : Nat) :
    ∀ (n : Nat) (acc : List Char), n < 10 ^ (fuel + 1) →
      ∃ ds : List Char, decimalAux (fuel + 1) n acc = ds ++ acc ∧ ds ≠ [] ∧
        (∀ c ∈ ds, isDigit c = true) ∧ digitsValue 0 ds = n := by
  induction fuel with
  | zero =>
    intro n acc hn
    have hn' : n < 10 := by simpa using hn
    refine ⟨[digitChar n], ?_, by simp, ?_, ?_⟩
    · simp [decimalAux, hn']
    · intro c hc
      rw [List.mem_singleton.mp hc]
      exact (digitChar_spec n hn').1
    · simpa [digitsValue] using (digitChar_spec n hn').2
  | succ fuel ih =>
    intro n acc hn
    by_cases hlt : n < 10
    · refine ⟨[digitChar n], ?_, by simp, ?_, ?_⟩
      · simp [decimalAux, hlt]
      · intro c hc
        rw [List.mem_singleton.mp hc]
        exact (digitChar_spec n hlt).1
      · simpa [digitsValue] using (digitChar_spec n hlt).2
    · have hdiv : n / 10 < 10 ^ (fuel + 1) := by
        apply Nat.div_lt_of_lt_mul
        rw [pow_succ] at hn
        omega
      obtain ⟨ds, hds, -, hdig, hval⟩ := ih (n / 10) (digitChar (n % 10) :: acc) hdiv
      have hmod : n % 10 < 10 := Nat.mod_lt n (by norm_num)
      refine ⟨ds ++ [digitChar (n % 10)], ?_, by simp, ?_, ?_⟩
      · rw [decimalAux, if_neg hlt, hds]
        simp
      · intro c hc
        rcases List.mem_append.mp hc with h | h
        · exact hdig c h
        · rw [List.mem_singleton.mp h]
          exact (digitChar_spec _ hmod).1
      · rw [digitsValue_append, hval, (digitChar_spec _ hmod).2]
        omega

theorem decimal_spec (n : Nat) :
    ∃ ds : List Char, decimal n = ds ∧ ds ≠ [] ∧ (∀ c ∈ ds, isDigit c = true) ∧
      digitsValue 0 ds = n := by
  have hn : n < 10 ^ (n + 1) :=
    lt_of_lt_of_le (Nat.lt_pow_self (by norm_num) n) (Nat.pow_le_pow_right (by norm_num) (by omega))
  obtain ⟨ds, hds, hne, hdig, hval⟩ := decimalAux_spec n n [] hn
  exact ⟨ds, by simpa [decimal] using hds, hne, hdig, hval⟩

theorem leadingInt_digits (ds : List Char) (hdig : ∀ c ∈ ds, isDigit c = true) (b : Char)
    (t : List Char) (hb : isDigit b = false) :
    ∀ x : Nat, x ≤ 2 ^ 63 →
      leadingInt x (ds ++ b :: t) =
        if digitsValue x ds ≤ 2 ^ 63 then some (digitsValue x ds, b :: t) else none := by
  induction ds with
  | nil =>
    intro x hx
    have hx' : x ≤ 9223372036854775808 := by
      have : (2 : Nat) ^ 63 = 9223372036854775808 := by norm_num
      omega
    simp [leadingInt, hb, digitsValue, hx']
  | cons c ds ih =>
    intro x hx
    have hc : isDigit c = true := hdig c (List.mem_cons_self c ds)
    have hds : ∀ c' ∈ ds, isDigit c' = true := fun c' h => hdig c' (List.mem_cons_of_mem c h)
    have hstep : digitsValue x (c :: ds) = digitsValue (x * 10 + (c.toNat - '0'.toNat)) ds := rfl
    have hmono := le_digitsValue ds (x * 10 + (c.toNat - '0'.toNat))
    rw [hstep]
    simp only [List.cons_append, leadingInt, hc, Bool.not_true, Bool.false_eq_true, if_false]
    by_cases h1 : x > 2 ^ 63 / 10
    · have : ¬ digitsValue (x * 10 + (c.toNat - '0'.toNat)) ds ≤ 2 ^ 63 := by
        have : 2 ^ 63 < x * 10 := by omega
        omega
      simp only [h1, this, if_true, if_false]
    · by_cases h2 : x * 10 + (c.toNat - '0'.toNat) > 2 ^ 63
      · have : ¬ digitsValue (x * 10 + (c.toNat - '0'.toNat)) ds ≤ 2 ^ 63 := by omega
        simp only [h1, h2, this, if_true, if_false]
      · simp only [h1, h2, if_false]
        exact ih hds _ (by omega)

theorem parseDurationLoop_seconds (ds : List Char) (hne : ds ≠ [])
    (hdig : ∀ c ∈ ds, isDigit c = true) (fuel : Nat) :
    parseDurationLoop (fuel + 2) 0 (ds ++ ['s']) =
      if digitsValue 0 ds ≤ 9223372036 then Sum.inl (some (digitsValue 0 ds * 1000000000))
      else Sum.inl none := by
  have hs : isDigit 's' = false := by decide
  have hlead := leadingInt_digits ds hdig 's' [] hs 0 (by norm_num)
  obtain ⟨c, t, rfl⟩ := List.exists_cons_of_ne_nil hne
  have hc : isDigit c = true := hdig c (List.mem_cons_self c t)
  simp only [List.cons_append] at hlead ⊢
  simp only [parseDurationLoop, hc, Bool.or_true, Bool.not_true, Bool.false_eq_true, if_false, hlead]
  by_cases hv : digitsValue 0 (c :: t) ≤ 2 ^ 63
  · simp only [hv, if_true]
    have hu : unitMap ['s'] = some 1000000000 := by decide
    have htw : List.takeWhile (fun b => !(decide (b = '.') || isDigit b)) ['s'] = ['s'] := by
      decide
    have hdw : List.dropWhile (fun b => !(decide (b = '.') || isDigit b)) ['s'] = [] := by
      decide
    simp only [List.head?_cons, Option.some.injEq, htw, hdw, hu, List.length_cons,
      List.length_append, List.length_nil]
    have hch : ¬ ('s' = '.') := by decide
    have hlen : ¬ (0 + 1 = t.length + (0 + 1) + 1) := by omega
    simp only [hch, if_false, hlen]
    have hq : 2 ^ 63 / 1000000000 = 9223372036 := by norm_num
    simp only [hq]
    by_cases hle : digitsValue 0 (c :: t) ≤ 9223372036
    · have h1 : ¬ digitsValue 0 (c :: t) > 9223372036 := by omega
      have h2 : ¬ 0 + digitsValue 0 (c :: t) * 1000000000 > 2 ^ 63 := by
        have : (2 : Nat) ^ 63 = 9223372036854775808 := by norm_num
        omega
      have h3 : digitsValue 0 (c :: t) * 1000000000 ≤ 9223372036854775808 := by omega
      simp [h1, h3, hle, parseDurationLoop]
    · have h1 : digitsValue 0 (c :: t) > 9223372036 := by omega
      simp [h1, hle]
  · have hle : ¬ digitsValue 0 (c :: t) ≤ 9223372036 := by
      have : (2 : Nat) ^ 63 = 9223372036854775808 := by norm_num
      omega
    simp only [hv, hle, if_false]

theorem isDigit_ne_sign (c : Char) (h : isDigit c = true) : c ≠ '-' ∧ c ≠ '+' := by
  constructor <;> (rintro rfl; exact absurd h (by decide))

theorem ParseDuration_digits_seconds (ds : List Char) (hne : ds ≠ [])
    (hdig : ∀ c ∈ ds, isDigit c = true) :
    ParseDuration (ds ++ ['s']) =
      if digitsValue 0 ds ≤ 9223372036 then ParseResult.ok (digitsValue 0 ds * 1000000000 : Nat)
      else ParseResult.invalid "time: invalid duration" := by
  have hloop := parseDurationLoop_seconds ds hne hdig
  obtain ⟨c, t, rfl⟩ := List.exists_cons_of_ne_nil hne
  obtain ⟨hm, hp⟩ := isDigit_ne_sign c (hdig c (List.mem_cons_self c t))
  have hfuel : (c :: t ++ ['s']).length + 1 = t.length + 1 + 2 := by simp
  have h0 : ¬ (c :: t ++ ['s'] = ['0']) := by
    intro h
    have := congrArg List.length h
    simp at this
  unfold ParseDuration
  simp only [List.cons_append, List.head?_cons, Option.some.injEq, hm, hp, or_self, if_false]
  simp only [List.cons_append] at h0 hfuel hloop
  rw [if_neg h0, if_neg (List.cons_ne_nil _ _), hfuel, hloop]
  by_cases hle : digitsValue 0 (c :: t) ≤ 9223372036
  · have h2 : ¬ digitsValue 0 (c :: t) * 1000000000 > 2 ^ 63 - 1 := by
      have : (2 : Nat) ^ 63 = 9223372036854775808 := by norm_num
      omega
    simp only [hle, if_true, h2, if_false]
  · simp only [hle, if_false]

theorem ParseDuration_neg_digits_seconds (ds : List Char) (hne : ds ≠ [])
    (hdig : ∀ c ∈ ds, isDigit c = true) :
    ParseDuration ('-' :: (ds ++ ['s'])) =
      if digitsValue 0 ds ≤ 9223372036 then
        ParseResult.ok (-((digitsValue 0 ds * 1000000000 : Nat) : Int))
      else ParseResult.invalid "time: invalid duration" := by
  have hloop := parseDurationLoop_seconds ds hne hdig
  obtain ⟨c, t, rfl⟩ := List.exists_cons_of_ne_nil hne
  have hfuel : (c :: t ++ ['s']).length + 1 = t.length + 1 + 2 := by simp
  have h0 : ¬ (c :: t ++ ['s'] = ['0']) := by
    intro h
    have := congrArg List.length h
    simp at this
  unfold ParseDuration
  simp only [List.cons_append, List.head?_cons, true_or, if_true, List.tail_cons]
  simp only [List.cons_append] at h0 hfuel hloop
  rw [if_neg h0, if_neg (List.cons_ne_nil _ _), hfuel, hloop]
  by_cases hle : digitsValue 0 (c :: t) ≤ 9223372036
  · simp only [hle, if_true]
  · simp only [hle, if_false]

/-- What `time.ParseDuration` answers on the text `fmt.Sprintf("%ds", n)`: the duration
of `n` seconds in nanoseconds when it fits 64 bits, which is when the magnitude of
`n` is at most 9223372036, and an error otherwise. -/
theorem ParseDuration_sprintfSeconds (n : Int) :
    ParseDuration (sprintfSeconds n) =
      if n.natAbs ≤ 9223372036 then ParseResult.ok (n * 1000000000)
      else ParseResult.invalid "time: invalid duration" := by
  cases n with
  | ofNat m =>
    obtain ⟨ds, hdec, hne, hdig, hval⟩ := decimal_spec m
    simp only [sprintfSeconds, hdec, ParseDuration_digits_seconds ds hne hdig, hval,
      Int.ofNat_eq_coe, Int.natAbs_ofNat]
    split
    · simp
    · rfl
  | negSucc m =>
    obtain ⟨ds, hdec, hne, hdig, hval⟩ := decimal_spec (m + 1)
    simp only [sprintfSeconds, hdec, ParseDuration_neg_digits_seconds ds hne hdig, hval,
      Int.natAbs_negSucc]
    split
    · congr 1
    · rfl

/-! ## Lemmas on the client operations -/

theorem assignString_of_stringOrAbsent (data : GoMap Json) (key : String)
    (h : stringOrAbsent data key = true) :
    client.assignString data key "" = Outcome.ret (fieldOrEmpty (some data) key) := by
  unfold stringOrAbsent at h
  unfold client.assignString fieldOrEmpty
  simp only [mapGet?]
  cases hg : data.get? key with
  | none => rfl
  | some v =>
    rw [hg] at h
    cases v <;> first | rfl | exact absurd h (by simp)

/-- What `GenerateAWSCredentials` returns on a response whose lease duration fits a
`time.Duration` and whose data fields are strings. -/
theorem GenerateAWSCredentials_valid (c : Client) (now : Time) (e r : String) (out : Secret)
    (hw : c.Write ("/" ++ e ++ "/sts/" ++ r) GoMap.empty = (some out, none))
    (hd : out.LeaseDuration.natAbs ≤ 9223372036) (hs : out.fieldsAreStrings = true) :
    client.GenerateAWSCredentials c now e r =
      Outcome.ret
        (some ⟨⟨now, Time.Add now (out.LeaseDuration * 1000000000), Time.zero⟩,
            fieldOrEmpty out.Data "access_key", fieldOrEmpty out.Data "secret_key",
            fieldOrEmpty out.Data "security_token"⟩, none) := by
  unfold client.GenerateAWSCredentials
  simp only [hw, ParseDuration_sprintfSeconds, if_pos hd]
  unfold Secret.fieldsAreStrings at hs
  cases hdata : out.Data with
  | none => rfl
  | some data =>
    rw [hdata] at hs
    simp only [Bool.and_eq_true] at hs
    obtain ⟨⟨h1, h2⟩, h3⟩ := hs
    simp only [client.AWSCredentials.zero, assignString_of_stringOrAbsent data _ h1,
      assignString_of_stringOrAbsent data _ h2, assignString_of_stringOrAbsent data _ h3]

/-- What `GenerateAWSCredentials` returns on a response whose lease duration does not
fit a `time.Duration`. -/
theorem GenerateAWSCredentials_invalid (c : Client) (now : Time) (e r : String) (out : Secret)
    (hw : c.Write ("/" ++ e ++ "/sts/" ++ r) GoMap.empty = (some out, none))
    (hd : ¬ out.LeaseDuration.natAbs ≤ 9223372036) :
    client.GenerateAWSCredentials c now e r =
      Outcome.ret (some ⟨⟨now, Time.zero, Time.zero⟩, "", "", ""⟩,
        some "time: invalid duration") := by
  unfold client.GenerateAWSCredentials
  simp only [hw, ParseDuration_sprintfSeconds, if_neg hd]
  rfl

theorem Time_Sub_Add (t : Time) (d : Int) (h : d.natAbs ≤ 9223372036) :
    Time.Sub (Time.Add t (d * 1000000000)) t = d * 1000000000 := by
  have key : ∀ x : Int, (if x + d * 1000000000 - x < -(2 ^ 63) then -(2 ^ 63)
      else if x + d * 1000000000 - x > 2 ^ 63 - 1 then 2 ^ 63 - 1
      else x + d * 1000000000 - x) = d * 1000000000 := by
    intro x
    have h1 : ¬ (x + d * 1000000000 - x < -(2 ^ 63)) := by
      norm_num
      omega
    have h2 : ¬ (x + d * 1000000000 - x > 2 ^ 63 - 1) := by
      norm_num
      omega
    rw [if_neg h1, if_neg h2]
    omega
  exact key t.nanos

theorem appendRoles_strings (ks acc : List String) :
    client.appendRoles acc (ks.map Json.str) = Outcome.ret (acc ++ ks) := by
  induction ks generalizing acc with
  | nil => simp [client.appendRoles]
  | cons k t ih => simp [client.appendRoles, ih]

/-! ## The client: claims C7 to C10 -/

/-- C7 (counterexample).  A lease duration of 9223372037 seconds does not fit a
`time.Duration`: `GenerateAWSCredentials` returns an error with a credential whose
`expire_at` is the zero instant, not `created_at` plus the lease duration. -/
theorem lease_beyond_duration_range :
    ∃ (creds : client.AWSCredentials) (err : Error),
      client.GenerateAWSCredentials (clientAnswering (some ⟨9223372037, some exampleData⟩))
          exampleNow "aws-dev" "reader" = Outcome.ret (some creds, some err) ∧
      Time.Sub creds.Metadata.ExpireAt creds.Metadata.CreatedAt ≠ 9223372037 * 1000000000 :=
  ⟨_, _, rfl, by decide⟩

/-- C7 (amended).  For every lease duration `d` of magnitude at most 9223372036 seconds
in a write response with no error and string data fields, processed at the instant `now`,
`GenerateAWSCredentials` returns a credential and no error, with `created_at` equal to
`now` and `expire_at - created_at` equal to `d` seconds. -/
theorem expiry_math (c : Client) (now : Time) (e r : String) (out : Secret)
    (hw : c.Write ("/" ++ e ++ "/sts/" ++ r) GoMap.empty = (some out, none))
    (hd : out.LeaseDuration.natAbs ≤ 9223372036) (hs : out.fieldsAreStrings = true) :
    ∃ creds : client.AWSCredentials,
      client.GenerateAWSCredentials c now e r = Outcome.ret (some creds, none) ∧
      creds.Metadata.CreatedAt = now ∧
      Time.Sub creds.Metadata.ExpireAt creds.Metadata.CreatedAt =
        out.LeaseDuration * 1000000000 :=
  ⟨_, GenerateAWSCredentials_valid c now e r out hw hd hs, rfl,
    Time_Sub_Add now out.LeaseDuration hd⟩

/-- C7 (witness): a lease of one hour. -/
theorem expiry_math_witness :
    ∃ creds : client.AWSCredentials,
      client.GenerateAWSCredentials (clientAnswering (some ⟨3600, some exampleData⟩))
          exampleNow "aws-dev" "reader" = Outcome.ret (some creds, none) ∧
      creds.Metadata.CreatedAt = exampleNow ∧
      Time.Sub creds.Metadata.ExpireAt creds.Metadata.CreatedAt = 3600 * 1000000000 :=
  expiry_math (clientAnswering (some ⟨3600, some exampleData⟩)) exampleNow "aws-dev" "reader"
    ⟨3600, some exampleData⟩ rfl (by decide) (by decide)

/-- C8 (counterexample).  A response without `lease_duration` has the lease duration
zero, which `time.ParseDuration` accepts as `0s`: `GenerateAWSCredentials` returns the
credential filled from the data and no error, with `expire_at` equal to `created_at`. -/
theorem absent_lease_accepted :
    client.GenerateAWSCredentials (clientAnswering (some ⟨0, some exampleData⟩))
        exampleNow "aws-dev" "reader" =
      Outcome.ret (some ⟨⟨exampleNow, exampleNow, Time.zero⟩, "AKIA1", "SK1", "ST1"⟩, none) := by
  decide

/-- C8 (amended).  For every write response with no error whose lease duration is
invalid, its magnitude being above 9223372036 seconds so that it does not fit a
`time.Duration`, `GenerateAWSCredentials` returns an error together with the partially
filled credential: `created_at` is set and every other field is zero. -/
theorem invalid_lease_refused (c : Client) (now : Time) (e r : String) (out : Secret)
    (hw : c.Write ("/" ++ e ++ "/sts/" ++ r) GoMap.empty = (some out, none))
    (hd : 9223372036 < out.LeaseDuration.natAbs) :
    ∃ err : Error,
      client.GenerateAWSCredentials c now e r =
        Outcome.ret (some ⟨⟨now, Time.zero, Time.zero⟩, "", "", ""⟩, some err) :=
  ⟨_, GenerateAWSCredentials_invalid c now e r out hw (by omega)⟩

/-- C8 (witness): a lease of 9223372037 seconds with the data of an STS answer. -/
theorem invalid_lease_refused_witness :
    ∃ err : Error,
      client.GenerateAWSCredentials (clientAnswering (some ⟨9223372037, some exampleData⟩))
          exampleNow "aws-dev" "reader" =
        Outcome.ret (some ⟨⟨exampleNow, Time.zero, Time.zero⟩, "", "", ""⟩, some err) :=
  invalid_lease_refused (clientAnswering (some ⟨9223372037, some exampleData⟩)) exampleNow
    "aws-dev" "reader" ⟨9223372037, some exampleData⟩ rfl (by decide)

/-- For every write response with no error, a valid lease duration and string data
fields, `GenerateAWSCredentials` returns a credential and no error in which
`access_key_id`, `secret_access_key` and `security_token` are the strings bound to
`access_key`, `secret_key` and `security_token` in the data, and the empty string for a
key that is missing or when there is no data map. -/
theorem credential_fields_from_data (c : Client) (now : Time) (e r : String) (out : Secret)
    (hw : c.Write ("/" ++ e ++ "/sts/" ++ r) GoMap.empty = (some out, none))
    (hd : out.LeaseDuration.natAbs ≤ 9223372036) (hs : out.fieldsAreStrings = true) :
    ∃ creds : client.AWSCredentials,
      client.GenerateAWSCredentials c now e r = Outcome.ret (some creds, none) ∧
      (∀ v, mapGet? out.Data "access_key" = some (Json.str v) → creds.AccessKeyID = v) ∧
      (mapGet? out.Data "access_key" = none → creds.AccessKeyID = "") ∧
      (∀ v, mapGet? out.Data "secret_key" = some (Json.str v) → creds.SecretAccessKey = v) ∧
      (mapGet? out.Data "secret_key" = none → creds.SecretAccessKey = "") ∧
      (∀ v, mapGet? out.Data "security_token" = some (Json.str v) → creds.SecurityToken = v) ∧
      (mapGet? out.Data "security_token" = none → creds.SecurityToken = "") := by
  refine ⟨_, GenerateAWSCredentials_valid c now e r out hw hd hs, ?_, ?_, ?_, ?_, ?_, ?_⟩ <;>
    intros <;> simp_all [fieldOrEmpty]

/-- The three fields of an STS answer with a lease of one hour are copied. -/
theorem credential_fields_from_data_witness :
    ∃ creds : client.AWSCredentials,
      client.GenerateAWSCredentials (clientAnswering (some ⟨3600, some exampleData⟩))
          exampleNow "aws-dev" "reader" = Outcome.ret (some creds, none) ∧
      creds.AccessKeyID = "AKIA1" ∧ creds.SecretAccessKey = "SK1" ∧
      creds.SecurityToken = "ST1" := by
  obtain ⟨creds, h, h1, -, h2, -, h3, -⟩ :=
    credential_fields_from_data (clientAnswering (some ⟨3600, some exampleData⟩)) exampleNow
      "aws-dev" "reader" ⟨3600, some exampleData⟩ rfl (by decide) (by decide)
  exact ⟨creds, h, h1 "AKIA1" rfl, h2 "SK1" rfl, h3 "ST1" rfl⟩

/-- For every answer of the list call that carries no error: when the response is
absent, has no data, or its data has no `keys` field, `ListAWSSecretEngineRoles` returns
the empty sequence and no error; when `keys` is a sequence of strings it returns these
strings, in the same order and number, and no error. -/
theorem list_roles_result (c : Client) (e : String) (resp : Option Secret)
    (hl : c.List ("/" ++ e ++ "/roles") = (resp, none)) :
    (resp = none → client.ListAWSSecretEngineRoles c e = Outcome.ret ([], none)) ∧
    (∀ out, resp = some out → out.Data = none →
      client.ListAWSSecretEngineRoles c e = Outcome.ret ([], none)) ∧
    (∀ out data, resp = some out → out.Data = some data → data.get? "keys" = none →
      client.ListAWSSecretEngineRoles c e = Outcome.ret ([], none)) ∧
    (∀ out data (ks : List String), resp = some out → out.Data = some data →
      data.get? "keys" = some (Json.arr (ks.map Json.str)) →
      client.ListAWSSecretEngineRoles c e = Outcome.ret (ks, none) ∧
        ks.length = (ks.map Json.str).length) := by
  refine ⟨?_, ?_, ?_, ?_⟩
  · rintro rfl
    simp only [client.ListAWSSecretEngineRoles, hl]
  · rintro ⟨ld, data⟩ rfl hdata
    simp only at hdata
    subst hdata
    simp only [client.ListAWSSecretEngineRoles, hl]
  · rintro ⟨ld, d⟩ data rfl hdata hk
    simp only at hdata
    subst hdata
    simp only [client.ListAWSSecretEngineRoles, hl, hk]
  · rintro ⟨ld, d⟩ data ks rfl hdata hk
    simp only at hdata
    subst hdata
    simp only [client.ListAWSSecretEngineRoles, hl, hk, appendRoles_strings, List.nil_append,
      List.length_map, and_self]

/-- A list answer with two role names gives the two names. -/
theorem list_roles_result_witness :
    client.ListAWSSecretEngineRoles (clientAnswering (some ⟨0, some exampleKeys⟩)) "aws-dev" =
      Outcome.ret (["admin", "reader"], none) :=
  ((list_roles_result (clientAnswering (some ⟨0, some exampleKeys⟩)) "aws-dev"
    (some ⟨0, some exampleKeys⟩) rfl).2.2.2 ⟨0, some exampleKeys⟩ exampleKeys
    ["admin", "reader"] rfl rfl rfl).1

/-! ## Lemmas on the state file -/

theorem insertEntry_perm {V : Type} (a : String × V) (l : List (String × V)) :
    (insertEntry a l).Perm (a :: l) := by
  induction l with
  | nil => exact List.Perm.refl _
  | cons b t ih =>
    unfold insertEntry
    split
    · exact (List.Perm.cons b ih).trans (List.Perm.swap a b t)
    · exact List.Perm.refl _

theorem sortEntries_perm {V : Type} (l : List (String × V)) : (sortEntries l).Perm l := by
  induction l with
  | nil => exact List.Perm.refl _
  | cons a t ih => exact (insertEntry_perm a _).trans (List.Perm.cons a ih)

theorem sortEntries_nodup {V : Type} (l : List (String × V)) (h : (l.map Prod.fst).Nodup) :
    ((sortEntries l).map Prod.fst).Nodup :=
  (((sortEntries_perm l).map Prod.fst).nodup_iff).mpr h

theorem lookupEntries_insertEntry {V : Type} (a : String × V) (l : List (String × V))
    (k : String) :
    GoMap.lookupEntries (insertEntry a l) k =
      if a.1 = k then some a.2 else GoMap.lookupEntries l k := by
  induction l with
  | nil => simp [insertEntry, GoMap.lookupEntries]
  | cons b t ih =>
    unfold insertEntry
    split
    · rename_i hlt
      have hne : b.1 ≠ a.1 := by
        intro h
        have hlt' := (stringLess_iff b.1 a.1).mp hlt
        rw [h] at hlt'
        exact lt_irrefl _ hlt'
      by_cases hb : b.1 = k
      · have ha : ¬ a.1 = k := fun h => hne (hb.trans h.symm)
        simp [GoMap.lookupEntries, hb, ha]
      · simp [GoMap.lookupEntries, hb, ih]
    · simp [GoMap.lookupEntries]

theorem lookupEntries_sortEntries {V : Type} (l : List (String × V)) (k : String) :
    GoMap.lookupEntries (sortEntries l) k = GoMap.lookupEntries l k := by
  induction l with
  | nil => rfl
  | cons a t ih =>
    rw [sortEntries, lookupEntries_insertEntry, ih]
    simp [GoMap.lookupEntries]

theorem lookupEntries_eq_none {V : Type} (l : List (String × V)) (k : String)
    (h : k ∉ l.map Prod.fst) : GoMap.lookupEntries l k = none := by
  have := (GoMap.lookupEntries_isSome l k).not.mpr h
  simpa using this

/-- Decoding the members that encode the entries of a duplicate-free list assigns to
every key of the list a value related to the one encoded, and leaves the other keys of
the map as they were. -/
theorem decodeMapMembers_marshalEntries {V : Type} (enc : V → Except Error Json)
    (dec : Json → Except Error V) (R : V → V → Prop) (P : V → Prop)
    (hcodec : ∀ v j, P v → enc v = Except.ok j → ∃ v', dec j = Except.ok v' ∧ R v v') :
    ∀ (l : List (String × V)) (kvs : List (String × Json)) (m₀ : GoMap V),
      (l.map Prod.fst).Nodup → (∀ kv ∈ l, P kv.2) → marshalEntries enc l = Except.ok kvs →
      ∃ m' : GoMap V, decodeMapMembers dec m₀ kvs = Except.ok m' ∧
        ∀ k, (∀ v, GoMap.lookupEntries l k = some v → ∃ v', m'.get? k = some v' ∧ R v v') ∧
          (GoMap.lookupEntries l k = none → m'.get? k = m₀.get? k) := by
  intro l
  induction l with
  | nil =>
    intro kvs m₀ _ _ h
    simp only [marshalEntries, Except.ok.injEq] at h
    subst h
    exact ⟨m₀, rfl, fun k => ⟨fun v hv => by simp [GoMap.lookupEntries] at hv, fun _ => rfl⟩⟩
  | cons hd t ih =>
    obtain ⟨k₀, v₀⟩ := hd
    intro kvs m₀ hnd hP h
    simp only [List.map_cons, List.nodup_cons] at hnd
    simp only [marshalEntries] at h
    cases hv₀ : enc v₀ with
    | error e => simp [hv₀] at h
    | ok j₀ =>
      cases ht : marshalEntries enc t with
      | error e => simp [hv₀, ht] at h
      | ok js =>
        simp only [hv₀, ht, Except.ok.injEq] at h
        subst h
        obtain ⟨v₀', hdec, hR⟩ := hcodec v₀ j₀ (hP (k₀, v₀) (List.mem_cons_self _ _)) hv₀
        obtain ⟨m', hm', hlook⟩ :=
          ih js (m₀.set k₀ v₀') hnd.2 (fun kv hkv => hP kv (List.mem_cons_of_mem _ hkv)) ht
        refine ⟨m', by simp only [decodeMapMembers, hdec, hm'], ?_⟩
        intro k
        by_cases hk : k₀ = k
        · subst hk
          have hnone := lookupEntries_eq_none t k₀ hnd.1
          refine ⟨?_, fun h => by simp [GoMap.lookupEntries] at h⟩
          intro v hv
          simp only [GoMap.lookupEntries, if_true, Option.some.injEq] at hv
          subst hv
          exact ⟨v₀', by rw [(hlook k₀).2 hnone, GoMap.get?_set_self], hR⟩
        · have hk' : k ≠ k₀ := fun h => hk h.symm
          simp only [GoMap.lookupEntries, if_neg hk]
          refine ⟨(hlook k).1, ?_⟩
          intro hnone
          rw [(hlook k).2 hnone, GoMap.get?_set_of_ne _ _ hk']

/-- What reading a written timestamp gives: the instant moved by the seconds of the
offset that the text does not hold, at the offset cut to whole minutes. -/
theorem decodeTime_marshalTime_shift (tc : TimeCodec) (t old : Time) (j : Json)
    (h : marshalTime tc t = Except.ok j) :
    decodeTime tc old j =
      Except.ok ⟨t.nanos + t.offset * 1000000000 - 60 * t.offset.tdiv 60 * 1000000000,
        60 * t.offset.tdiv 60⟩ := by
  unfold marshalTime at h
  cases hf : tc.format (t.nanos + t.offset * 1000000000) t.offset with
  | none => simp [hf] at h
  | some text =>
    simp only [hf, Except.ok.injEq] at h
    subst h
    simp only [decodeTime, tc.parse_format _ _ _ hf]

theorem decodeTime_marshalTime (tc : TimeCodec) (t old : Time) (j : Json)
    (hz : t.wholeMinutes = true) (h : marshalTime tc t = Except.ok j) :
    decodeTime tc old j = Except.ok t := by
  rw [decodeTime_marshalTime_shift tc t old j h]
  have hdvd : 60 * t.offset.tdiv 60 = t.offset := by
    unfold Time.wholeMinutes at hz
    exact Int.mul_tdiv_cancel' (Int.dvd_of_emod_eq_zero (of_decide_eq_true hz))
  obtain ⟨n, o⟩ := t
  simp only at hdvd
  simp only [hdvd, Except.ok.injEq, Time.mk.injEq, and_true]
  omega

theorem decodeCredentials_marshalCredentials (tc : TimeCodec)
    (v : Option client.AWSCredentials) (j : Json) (hz : credentialsInWholeMinutes v = true)
    (h : marshalCredentials tc v = Except.ok j) :
    decodeCredentials tc j = Except.ok v := by
  cases v with
  | none =>
    simp only [marshalCredentials, Except.ok.injEq] at h
    subst h
    rfl
  | some c =>
    obtain ⟨⟨t₁, t₂, t₃⟩, a, b, d⟩ := c
    simp only [credentialsInWholeMinutes, Bool.and_eq_true] at hz
    obtain ⟨⟨hz₁, hz₂⟩, hz₃⟩ := hz
    simp only [marshalCredentials] at h
    cases h₁ : marshalTime tc t₁ with
    | error e => simp [h₁] at h
    | ok x₁ =>
      cases h₂ : marshalTime tc t₂ with
      | error e => simp [h₁, h₂] at h
      | ok x₂ =>
        cases h₃ : marshalTime tc t₃ with
        | error e => simp [h₁, h₂, h₃] at h
        | ok x₃ =>
          simp only [h₁, h₂, h₃, Except.ok.injEq] at h
          subst h
          have d₁ := fun old => decodeTime_marshalTime tc t₁ old x₁ hz₁ h₁
          have d₂ := fun old => decodeTime_marshalTime tc t₂ old x₂ hz₂ h₂
          have d₃ := fun old => decodeTime_marshalTime tc t₃ old x₃ hz₃ h₃
          have k1 : keyMatches "metadata" "metadata" = true := by decide
          have k2 : keyMatches "metadata" "access_key_id" = false := by decide
          have k3 : keyMatches "access_key_id" "access_key_id" = true := by decide
          have k4 : keyMatches "metadata" "secret_access_key" = false := by decide
          have k5 : keyMatches "access_key_id" "secret_access_key" = false := by decide
          have k6 : keyMatches "secret_access_key" "secret_access_key" = true := by decide
          have k7 : keyMatches "metadata" "security_token" = false := by decide
          have k8 : keyMatches "access_key_id" "security_token" = false := by decide
          have k9 : keyMatches "secret_access_key" "security_token" = false := by decide
          have k10 : keyMatches "security_token" "security_token" = true := by decide
          have m1 : keyMatches "created_at" "created_at" = true := by decide
          have m2 : keyMatches "created_at" "expire_at" = false := by decide
          have m3 : keyMatches "expire_at" "expire_at" = true := by decide
          have m4 : keyMatches "created_at" "renew_before" = false := by decide
          have m5 : keyMatches "expire_at" "renew_before" = false := by decide
          have m6 : keyMatches "renew_before" "renew_before" = true := by decide
          simp [decodeCredentials, decodeMembers, decodeCredentialsMember, decodeMetadata,
            decodeMetadataMember, decodeString, k1, k2, k3, k4, k5, k6, k7, k8, k9,
            k10, m1, m2, m3, m4, m5, m6, d₁, d₂, d₃, client.AWSCredentials.zero]

theorem decodeRoleMap_marshalRoleMap (tc : TimeCodec) (rm : RoleMap) (j : Json)
    (hz : roleMapInWholeMinutes rm = true) (h : marshalRoleMap tc rm = Except.ok j) :
    ∃ rm' : RoleMap, decodeRoleMap tc j = Except.ok rm' ∧
      ∀ r, mapGet? rm r = mapGet? rm' r := by
  cases rm with
  | none =>
    simp only [marshalRoleMap, Except.ok.injEq] at h
    subst h
    exact ⟨none, rfl, fun _ => rfl⟩
  | some m =>
    simp only [marshalRoleMap] at h
    cases hm : marshalEntries (marshalCredentials tc) (sortEntries m.entries) with
    | error e => simp [hm] at h
    | ok kvs =>
      simp only [hm, Except.ok.injEq] at h
      subst h
      have hP : ∀ kv ∈ sortEntries m.entries, credentialsInWholeMinutes kv.2 = true := by
        intro kv hkv
        simp only [roleMapInWholeMinutes, List.all_eq_true] at hz
        exact hz kv ((sortEntries_perm m.entries).mem_iff.mp hkv)
      obtain ⟨m', hm', hlook⟩ :=
        decodeMapMembers_marshalEntries (marshalCredentials tc) (decodeCredentials tc) Eq
          (fun v => credentialsInWholeMinutes v = true)
          (fun v j hv hj => ⟨v, decodeCredentials_marshalCredentials tc v j hv hj, rfl⟩)
          (sortEntries m.entries) kvs GoMap.empty (sortEntries_nodup _ m.nodup) hP hm
      refine ⟨some m', by simp only [decodeRoleMap, hm'], ?_⟩
      intro r
      simp only [mapGet?, GoMap.get?]
      cases hr : GoMap.lookupEntries m.entries r with
      | none =>
        have := (hlook r).2 (by rw [lookupEntries_sortEntries, hr])
        simpa [GoMap.get?, GoMap.empty, GoMap.lookupEntries] using this.symm
      | some v =>
        obtain ⟨v', hv', rfl⟩ := (hlook r).1 v (by rw [lookupEntries_sortEntries, hr])
        exact hv'.symm

theorem decodeCurrent_marshalCurrent (c : Current) :
    ∃ kvs, marshalCurrent c = Json.obj kvs ∧
      decodeMembers decodeCurrentMember ⟨"", ""⟩ kvs = Except.ok c := by
  obtain ⟨eng, role⟩ := c
  have k1 : keyMatches "engine" "engine" = true := by decide
  have k2 : keyMatches "engine" "role" = false := by decide
  have k3 : keyMatches "role" "role" = true := by decide
  refine ⟨_, rfl, ?_⟩
  by_cases he : eng = "" <;> by_cases hr : role = "" <;>
    simp [decodeMembers, decodeCurrentMember, decodeString, he, hr, k1, k2, k3]

/-- Reading back what `marshalState` writes: the selection is the same, every engine key
is bound to a role mapping with the same bindings, and no key is added. -/
theorem unmarshalState_marshalState (tc : TimeCodec) (s : State) (j : Json)
    (hz : s.zonesInWholeMinutes = true) (h : marshalState tc s = Except.ok j) :
    ∃ s' : State, unmarshalState tc j = Except.ok s' ∧ s'.Current = s.Current ∧
      ∀ e, (∀ rm, mapGet? s.AWSCredentials e = some rm →
          ∃ rm', mapGet? s'.AWSCredentials e = some rm' ∧ ∀ r, mapGet? rm r = mapGet? rm' r) ∧
        (mapGet? s.AWSCredentials e = none → mapGet? s'.AWSCredentials e = none) := by
  obtain ⟨cur, creds⟩ := s
  obtain ⟨ckvs, hcur, hdec⟩ := decodeCurrent_marshalCurrent cur
  have k1 : keyMatches "current" "current" = true := by decide
  have k2 : keyMatches "current" "creds" = false := by decide
  have k3 : keyMatches "creds" "creds" = true := by decide
  have hbare : unmarshalState tc (Json.obj [("current", marshalCurrent cur)]) =
      Except.ok ⟨cur, none⟩ := by
    simp [unmarshalState, decodeMembers, decodeStateMember, k1, hcur, hdec, State.zero]
  cases creds with
  | none =>
    simp only [marshalState, Except.ok.injEq] at h
    subst h
    exact ⟨⟨cur, none⟩, hbare, rfl, fun e => ⟨fun rm hrm => by simp [mapGet?] at hrm, fun _ => rfl⟩⟩
  | some m =>
    simp only [marshalState] at h
    by_cases hempty : m.entries.isEmpty = true
    · simp only [hempty, if_true, Except.ok.injEq] at h
      subst h
      have hnil : m.entries = [] := List.isEmpty_iff.mp hempty
      refine ⟨⟨cur, none⟩, hbare, rfl, fun e => ⟨fun rm hrm => ?_, fun _ => rfl⟩⟩
      simp [mapGet?, GoMap.get?, hnil, GoMap.lookupEntries] at hrm
    · simp only [hempty, Bool.false_eq_true, if_false] at h
      cases hm : marshalEntries (marshalRoleMap tc) (sortEntries m.entries) with
      | error e => simp [hm] at h
      | ok kvs =>
        simp only [hm, Except.ok.injEq] at h
        subst h
        have hP : ∀ kv ∈ sortEntries m.entries, roleMapInWholeMinutes kv.2 = true := by
          intro kv hkv
          simp only [State.zonesInWholeMinutes, List.all_eq_true] at hz
          exact hz kv ((sortEntries_perm m.entries).mem_iff.mp hkv)
        obtain ⟨m', hm', hlook⟩ :=
          decodeMapMembers_marshalEntries (marshalRoleMap tc) (decodeRoleMap tc)
            (fun rm rm' => ∀ r, mapGet? rm r = mapGet? rm' r)
            (fun rm => roleMapInWholeMinutes rm = true)
            (decodeRoleMap_marshalRoleMap tc)
            (sortEntries m.entries) kvs GoMap.empty (sortEntries_nodup _ m.nodup) hP hm
        refine ⟨⟨cur, some m'⟩, ?_, rfl, ?_⟩
        · simp [unmarshalState, decodeMembers, decodeStateMember, k1, k2, k3, hcur, hdec,
            State.zero, hm']
        · intro e
          simp only [mapGet?, GoMap.get?]
          constructor
          · intro rm hrm
            exact (hlook e).1 rm (by rw [lookupEntries_sortEntries, hrm])
          · intro hnone
            have := (hlook e).2 (by rw [lookupEntries_sortEntries, hnone])
            simpa [GoMap.get?, GoMap.empty, GoMap.lookupEntries] using this

theorem GetAWSCredentials_eq (s : State) (e r : String) :
    s.GetAWSCredentials e r =
      match mapGet? s.AWSCredentials e with
      | some inner =>
        match mapGet? inner r with
        | some creds => creds
        | none => none
      | none => none := by
  unfold State.GetAWSCredentials mapGet?
  cases s.AWSCredentials <;> rfl

theorem sortStrings_mapKeys_congr {V W : Type} (m : Option (GoMap V)) (m' : Option (GoMap W))
    (h : ∀ k, (mapGet? m k).isSome = (mapGet? m' k).isSome) :
    sortStrings (mapKeys m) = sortStrings (mapKeys m') := by
  apply sortStrings_eq_of_perm
  rw [List.perm_ext_iff_of_nodup (mapKeys_nodup m) (mapKeys_nodup m')]
  intro k
  rw [mem_mapKeys_iff, mem_mapKeys_iff, h k]

/-- Two States in which every engine key of the first is a key of the second bound to a
role mapping with the same bindings, and no other engine is a key of the second, are
not told apart by the lookups and the listings. -/
theorem observations_of_same_bindings (s s' : State)
    (h : ∀ e, (∀ rm, mapGet? s.AWSCredentials e = some rm →
          ∃ rm', mapGet? s'.AWSCredentials e = some rm' ∧ ∀ r, mapGet? rm r = mapGet? rm' r) ∧
        (mapGet? s.AWSCredentials e = none → mapGet? s'.AWSCredentials e = none)) :
    (∀ e r, s'.GetAWSCredentials e r = s.GetAWSCredentials e r) ∧
    s'.GetCachedEngines = s.GetCachedEngines ∧
    ∀ e, s'.GetCachedEngineRoles e = s.GetCachedEngineRoles e := by
  refine ⟨?_, ?_, ?_⟩
  · intro e r
    rw [GetAWSCredentials_eq, GetAWSCredentials_eq]
    cases hg : mapGet? s.AWSCredentials e with
    | none => rw [(h e).2 hg]
    | some rm =>
      obtain ⟨rm', hrm', hsame⟩ := (h e).1 rm hg
      rw [hrm']
      simp only [hsame r]
  · unfold State.GetCachedEngines
    apply sortStrings_mapKeys_congr
    intro e
    cases hg : mapGet? s.AWSCredentials e with
    | none => rw [(h e).2 hg]
    | some rm =>
      obtain ⟨rm', hrm', -⟩ := (h e).1 rm hg
      rw [hrm']
      rfl
  · intro e
    unfold State.GetCachedEngineRoles State.rolesOf
    apply sortStrings_mapKeys_congr
    intro r
    cases hg : mapGet? s.AWSCredentials e with
    | none => rw [(h e).2 hg]
    | some rm =>
      obtain ⟨rm', hrm', hsame⟩ := (h e).1 rm hg
      rw [hrm']
      simp only [hsame r]

/-! ## The state file: claim C5 -/

/-- C5 (counterexample).  The text of a timestamp holds the offset of the location in
hours and minutes only.  A credential issued by a process whose location is thirty
seconds ahead of UTC is written with the clock reading of that location and the offset
`+00:00`: `Write` and `Read` succeed, and the State read back holds `created_at` and
`expire_at` thirty seconds later than the State written. -/
theorem zone_seconds_lost_in_round_trip :
    ∃ (fs' : FS) (s' : State),
      Write exampleCodec offsetState "state.json" emptyFS = (fs', none) ∧
      Read exampleCodec "state.json" fs' = (some s', none) ∧
      offsetState.GetAWSCredentials "aws-dev" "reader" =
        some ⟨⟨⟨63902822400000000000, 30⟩, ⟨63902826000000000000, 30⟩, Time.zero⟩,
          "AKIA1", "SK1", "ST1"⟩ ∧
      s'.GetAWSCredentials "aws-dev" "reader" =
        some ⟨⟨⟨63902822430000000000, 0⟩, ⟨63902826030000000000, 0⟩, Time.zero⟩,
          "AKIA1", "SK1", "ST1"⟩ ∧
      s'.GetAWSCredentials "aws-dev" "reader" ≠ offsetState.GetAWSCredentials "aws-dev" "reader" :=
  ⟨_, _, rfl, rfl, rfl, rfl, by decide⟩

/-- C5 (amended).  Round trip: for every State whose names and credential strings are
valid UTF-8, as the strings of the model are, and whose timestamps have offsets of
whole minutes, whenever `Write` succeeds, `Read` of the same path in the resulting file
system returns a State and no error, with the same current engine and role, the same
`GetAWSCredentials` result for every engine and role, and the same listings of cached
engines and of the cached roles of every engine. -/
theorem write_read_round_trip (tc : TimeCodec) (s : State) (filePath : String) (fs fs' : FS)
    (hz : s.zonesInWholeMinutes = true) (hw : Write tc s filePath fs = (fs', none)) :
    ∃ s' : State, Read tc filePath fs' = (some s', none) ∧
      s'.Current = s.Current ∧
      (∀ e r, s'.GetAWSCredentials e r = s.GetAWSCredentials e r) ∧
      s'.GetCachedEngines = s.GetCachedEngines ∧
      ∀ e, s'.GetCachedEngineRoles e = s.GetCachedEngineRoles e := by
  unfold Write at hw
  cases hm : marshalState tc s with
  | error err => simp [hm] at hw
  | ok j =>
    simp only [hm, FS.writeFile] at hw
    cases hden : fs.denied filePath with
    | some err => simp [hden] at hw
    | none =>
      simp only [hden, Prod.mk.injEq, and_true] at hw
      subst hw
      obtain ⟨s', hs', hcur, hsame⟩ := unmarshalState_marshalState tc s j hz hm
      refine ⟨s', ?_, hcur, observations_of_same_bindings s s' hsame⟩
      simp only [Read, if_true, hs']

/-- C5 (witness): the State of the worked example, whose timestamps are in UTC, is
written and read back. -/
theorem write_read_round_trip_witness :
    ∃ (fs' : FS) (s' : State),
      Write exampleCodec exampleState "state.json" emptyFS = (fs', none) ∧
      Read exampleCodec "state.json" fs' = (some s', none) ∧
      s'.Current = ⟨"aws-dev", "reader"⟩ ∧
      s'.GetAWSCredentials "aws-dev" "reader" =
        some ⟨⟨exampleNow, Time.Add exampleNow 3600000000000, Time.zero⟩, "AKIA1", "SK1", "ST1"⟩ ∧
      s'.GetCachedEngines = ["aws-dev"] ∧
      s'.GetCachedEngineRoles "aws-dev" = ["reader"] := by
  obtain ⟨s', hr, hc, hg, he, hl⟩ :=
    write_read_round_trip exampleCodec exampleState "state.json" emptyFS _ (by decide) rfl
  exact ⟨_, s', rfl, hr, hc, (hg "aws-dev" "reader").trans rfl, he.trans (by decide),
    (hl "aws-dev").trans (by decide)⟩

/-! ## The client: claim C11 -/

theorem TrimSuffix_slash_data (p : String) :
    (∀ ys, p.data = ys ++ ['/'] → (strings.TrimSuffix p "/").data = ys) ∧
    (p.data.getLast? ≠ some '/' → strings.TrimSuffix p "/" = p) := by
  have hs : ("/" : String).data = ['/'] := rfl
  constructor
  · intro ys hys
    have hsuf : ['/'].isSuffixOf p.data = true := by
      rw [List.isSuffixOf_iff_suffix, hys]
      exact List.suffix_append ys ['/']
    unfold strings.TrimSuffix
    rw [hs, if_pos hsuf, hys]
    simp
  · intro hlast
    have hsuf : ¬ (['/'].isSuffixOf p.data = true) := by
      rw [List.isSuffixOf_iff_suffix]
      rintro ⟨ys, hys⟩
      exact hlast (List.getLast?_eq_some_iff.mpr ⟨ys, hys.symm⟩)
    unfold strings.TrimSuffix
    rw [hs, if_neg hsuf]

theorem TrimSuffix_slash_ends (p : String) :
    (strings.TrimSuffix p "/").data.getLast? = some '/' ↔ ∃ q, p.data = q ++ ['/', '/'] := by
  by_cases hlast : p.data.getLast? = some '/'
  · obtain ⟨ys, hys⟩ := List.getLast?_eq_some_iff.mp hlast
    rw [(TrimSuffix_slash_data p).1 ys hys, List.getLast?_eq_some_iff]
    constructor
    · rintro ⟨q, hq⟩
      exact ⟨q, by rw [hys, hq]; simp⟩
    · rintro ⟨q, hq⟩
      refine ⟨q, ?_⟩
      have : ys ++ ['/'] = (q ++ ['/']) ++ ['/'] := by rw [← hys, hq]; simp
      exact List.append_cancel_right this
  · rw [(TrimSuffix_slash_data p).2 hlast]
    constructor
    · intro h
      exact absurd h hlast
    · rintro ⟨q, hq⟩
      exact absurd (List.getLast?_eq_some_iff.mpr ⟨q ++ ['/'], by rw [hq]; simp⟩) hlast

theorem appendEngines_present (entries : List (String × Option MountOutput))
    (h : entries.all (fun kv => kv.2.isSome) = true) (acc : List String) :
    client.appendEngines acc entries =
      Outcome.ret (acc ++
        (entries.filter
          (fun kv =>
            match kv.2 with
            | some mountSpec => decide (mountSpec.type = "aws")
            | none => false)).map (fun kv => strings.TrimSuffix kv.1 "/")) := by
  induction entries generalizing acc with
  | nil => simp [client.appendEngines]
  | cons hd t ih =>
    obtain ⟨name, spec⟩ := hd
    simp only [List.all_cons, Bool.and_eq_true] at h
    cases spec with
    | none => exact absurd h.1 (by simp)
    | some mountSpec =>
      by_cases ht : mountSpec.type = "aws"
      · simp [client.appendEngines, ht, ih h.2, List.filter_cons]
      · simp [client.appendEngines, ht, ih h.2, List.filter_cons]

/-- C11 (counterexample).  A mount path that ends in two separators loses one only: the
AWS mount `aws//` of the table is returned as `aws/`, a name that ends in `/`. -/
theorem mount_name_keeps_a_separator :
    client.ListAWSSecretEngines (some exampleMounts, none) =
      Outcome.ret (["aws-dev", "aws/"], none) := by
  decide

/-- C11 (amended).  For every mount table with no nil descriptor, `ListAWSSecretEngines`
returns no error and, in the order of the iteration, one name for each mount of type
`aws` and none for any other mount; each name is the mount path without one trailing
`/`, if it has one, so that a returned name ends in `/` exactly when the path ends in
two of them. -/
theorem list_aws_engines (mounts : Option (GoMap (Option MountOutput)))
    (h : descriptorsPresent mounts = true) :
    client.ListAWSSecretEngines (mounts, none) =
      Outcome.ret ((awsMounts mounts).map (fun kv => strings.TrimSuffix kv.1 "/"), none) ∧
    ∀ kv ∈ awsMounts mounts,
      (∀ ys, kv.1.data = ys ++ ['/'] → (strings.TrimSuffix kv.1 "/").data = ys) ∧
      (kv.1.data.getLast? ≠ some '/' → strings.TrimSuffix kv.1 "/" = kv.1) ∧
      ((strings.TrimSuffix kv.1 "/").data.getLast? = some '/' ↔
        ∃ q, kv.1.data = q ++ ['/', '/']) := by
  constructor
  · unfold client.ListAWSSecretEngines awsMounts
    unfold descriptorsPresent at h
    simp only [appendEngines_present _ h, List.nil_append]
  · intro kv _
    exact ⟨(TrimSuffix_slash_data kv.1).1, (TrimSuffix_slash_data kv.1).2,
      TrimSuffix_slash_ends kv.1⟩

/-- C11 (witness): the table of the worked example, with one mount that is not AWS. -/
theorem list_aws_engines_witness :
    client.ListAWSSecretEngines (some exampleMounts, none) =
      Outcome.ret ((awsMounts (some exampleMounts)).map
        (fun kv => strings.TrimSuffix kv.1 "/"), none) :=
  (list_aws_engines (some exampleMounts) (by decide)).1

/-! ## The State Store: claims C12 to C16 -/

theorem apply_returns (s : State) (hs : s.NoEmptyRoleMap) (op : Op) :
    ∃ s', s.apply op = Outcome.ret s' := by
  have hset : ∀ e r c, ∃ s', s.SetAWSCredentials e r c = Outcome.ret s' := by
    intro e r c
    rw [SetAWSCredentials_returns_iff]
    intro hnil
    obtain ⟨inner, hin, -⟩ := hs e none hnil
    exact absurd hin (by simp)
  cases op with
  | SetCurrentEngine engine => exact ⟨_, rfl⟩
  | SetCurrentRole role => exact ⟨_, rfl⟩
  | SetAWSCredentials engine role creds => exact hset engine role creds
  | SetCurrentAWSCredentials creds => exact hset _ _ creds

theorem NamedKeys_zero : State.zero.NamedKeys := by
  intro e rm h
  simp [State.zero, mapGet?] at h

theorem NamedKeys_SetAWSCredentials (s s' : State) (e r : String)
    (c : Option client.AWSCredentials) (hs : s.NamedKeys) (he : e ≠ "") (hr : r ≠ "")
    (h : s.SetAWSCredentials e r c = Outcome.ret s') : s'.NamedKeys := by
  obtain ⟨m, inner, rfl, hm, hinner, -⟩ := SetAWSCredentials_ret s s' e r c h
  intro e' rm hrm
  simp only [mapGet?] at hrm
  by_cases hee : e' = e
  · subst hee
    rw [GoMap.get?_set_self] at hrm
    have hrm' : rm = some (inner.set r c) := (Option.some.inj hrm).symm
    subst hrm'
    refine ⟨he, ?_⟩
    intro r' hr'
    by_cases hrr : r' = r
    · rw [hrr]
      exact hr
    · simp only [mapGet?] at hr'
      rw [GoMap.get?_set_of_ne _ _ hrr, hinner r' hrr] at hr'
      cases hg : mapGet? s.AWSCredentials e' with
      | none =>
        simp only [State.rolesOf, hg] at hr'
        simp [mapGet?] at hr'
      | some rm₀ =>
        simp only [State.rolesOf, hg] at hr'
        exact (hs e' rm₀ hg).2 r' hr'
  · rw [GoMap.get?_set_of_ne _ _ hee, hm e' hee] at hrm
    exact hs e' rm hrm

theorem NamedKeys_apply (s s' : State) (op : Op) (hs : s.NamedKeys)
    (hop : op.named s = true) (h : s.apply op = Outcome.ret s') : s'.NamedKeys := by
  cases op with
  | SetCurrentEngine engine =>
    have : s' = s.SetCurrentEngine engine := (Outcome.ret.inj h).symm
    subst this
    exact hs
  | SetCurrentRole role =>
    have : s' = s.SetCurrentRole role := (Outcome.ret.inj h).symm
    subst this
    exact hs
  | SetAWSCredentials engine role creds =>
    simp only [Op.named, Bool.and_eq_true, decide_eq_true_eq] at hop
    exact NamedKeys_SetAWSCredentials s s' engine role creds hs hop.1 hop.2 h
  | SetCurrentAWSCredentials creds =>
    simp only [Op.named, Bool.and_eq_true, decide_eq_true_eq] at hop
    exact NamedKeys_SetAWSCredentials s s' _ _ creds hs hop.1 hop.2 h

theorem NamedKeys_run (ops : List Op) (s : State) (hne : s.NoEmptyRoleMap) (hs : s.NamedKeys)
    (hops : s.allNamed ops = true) :
    ∃ s', s.run ops = Outcome.ret s' ∧ s'.NamedKeys := by
  induction ops generalizing s with
  | nil => exact ⟨s, rfl, hs⟩
  | cons op ops ih =>
    obtain ⟨s₁, h₁⟩ := apply_returns s hne op
    simp only [State.allNamed, h₁, Bool.and_eq_true] at hops
    obtain ⟨s', hrun, hnamed⟩ :=
      ih s₁ (NoEmptyRoleMap_apply s s₁ op hne h₁) (NamedKeys_apply s s₁ op hs hops.1 h₁) hops.2
    exact ⟨s', by simp only [State.run, h₁, hrun], hnamed⟩

theorem mem_GetCachedEngineRoles_iff (s : State) (e r : String) :
    r ∈ s.GetCachedEngineRoles e ↔ (mapGet? (s.rolesOf e) r).isSome = true := by
  unfold State.GetCachedEngineRoles
  rw [mem_sortStrings, mem_mapKeys_iff]

/-- C12 (counterexample).  On the empty State, whose selection is empty,
`SetCurrentAWSCredentials` stores the credentials under the empty engine and the empty
role. -/
theorem unnamed_pair_cached :
    ∃ s : State,
      State.zero.run [Op.SetCurrentAWSCredentials (some client.AWSCredentials.zero)] =
        Outcome.ret s ∧
      s.GetCachedEngines = [""] ∧ s.GetCachedEngineRoles "" = [""] :=
  ⟨_, rfl, by decide, by decide⟩

/-- C12 (amended).  Starting from the empty State, every sequence of store operations in
which `SetAWSCredentials` is called with an engine and a role that are not empty, and
`SetCurrentAWSCredentials` is called when the current engine and role are not empty,
runs to a State in which every cached engine and every cached role of every engine is
a string that is not empty. -/
theorem named_runs_cache_named_pairs (ops : List Op)
    (h : State.zero.allNamed ops = true) :
    ∃ s : State, State.zero.run ops = Outcome.ret s ∧
      (∀ e ∈ s.GetCachedEngines, e ≠ "") ∧
      ∀ e r, r ∈ s.GetCachedEngineRoles e → e ≠ "" ∧ r ≠ "" := by
  obtain ⟨s, hrun, hnamed⟩ := NamedKeys_run ops State.zero NoEmptyRoleMap_zero NamedKeys_zero h
  refine ⟨s, hrun, ?_, ?_⟩
  · intro e he
    rw [mem_GetCachedEngines_iff] at he
    cases hg : mapGet? s.AWSCredentials e with
    | none =>
      rw [hg] at he
      exact absurd he (by simp)
    | some rm => exact (hnamed e rm hg).1
  · intro e r hr
    rw [mem_GetCachedEngineRoles_iff] at hr
    cases hg : mapGet? s.AWSCredentials e with
    | none =>
      simp only [State.rolesOf, hg] at hr
      simp [mapGet?] at hr
    | some rm =>
      simp only [State.rolesOf, hg] at hr
      exact ⟨(hnamed e rm hg).1, (hnamed e rm hg).2 r hr⟩

/-- C12 (witness): a selection followed by an insertion for it and an insertion by
name. -/
theorem named_runs_cache_named_pairs_witness :
    ∃ s : State,
      State.zero.run [Op.SetCurrentEngine "aws-dev", Op.SetCurrentRole "reader",
        Op.SetCurrentAWSCredentials none, Op.SetAWSCredentials "aws-prod" "admin" none] =
        Outcome.ret s ∧
      (∀ e ∈ s.GetCachedEngines, e ≠ "") ∧
      ∀ e r, r ∈ s.GetCachedEngineRoles e → e ≠ "" ∧ r ≠ "" :=
  named_runs_cache_named_pairs _ (by decide)

/-- C13.  Setting the current engine twice to the same name gives the State that
setting it once gives, and likewise for the current role; after the two setters the
current engine and role are the names given. -/
theorem selection_idempotent (s : State) (x y : String) :
    (s.SetCurrentEngine x).SetCurrentEngine x = s.SetCurrentEngine x ∧
    (s.SetCurrentRole y).SetCurrentRole y = s.SetCurrentRole y ∧
    (s.SetCurrentEngine x).Current.Engine = x ∧
    (s.SetCurrentRole y).Current.Role = y ∧
    ((s.SetCurrentEngine x).SetCurrentRole y).Current = ⟨x, y⟩ ∧
    ((s.SetCurrentRole y).SetCurrentEngine x).Current = ⟨x, y⟩ :=
  ⟨rfl, rfl, rfl, rfl, rfl, rfl⟩

theorem SetCurrentAWSCredentials_eq (s : State) (c : Option client.AWSCredentials) :
    s.SetCurrentAWSCredentials c = s.SetAWSCredentials s.Current.Engine s.Current.Role c :=
  rfl

theorem SetCurrentAWSCredentials_ret_get (s s' : State) (c : Option client.AWSCredentials)
    (h : s.SetCurrentAWSCredentials c = Outcome.ret s') : s'.GetCurrentAWSCredentials = c := by
  have hcur : s'.Current = s.Current := by
    obtain ⟨m, inner, rfl, -, -, -⟩ := SetAWSCredentials_ret s s' _ _ c h
    rfl
  unfold State.GetCurrentAWSCredentials
  rw [hcur]
  exact SetAWSCredentials_ret_get s s' _ _ c h

/-- C14 (failing input).  On the State that `Read` gives for a state file that selects
the engine `aws` and the role `reader` and binds `aws` to `null`,
`SetCurrentAWSCredentials` panics as `SetAWSCredentials` for the selection does, and
`GetCurrentAWSCredentials` keeps returning nil, not the credentials given. -/
theorem SetCurrentAWSCredentials_faults_on_nil_role_map :
    ∃ s : State,
      Read exampleCodec "state.json" nilRoleMapFS = (some s, none) ∧
      s.Current = ⟨"aws", "reader"⟩ ∧
      s.SetCurrentAWSCredentials (some client.AWSCredentials.zero) =
        Outcome.fault "assignment to entry in nil map" ∧
      s.SetAWSCredentials "aws" "reader" (some client.AWSCredentials.zero) =
        Outcome.fault "assignment to entry in nil map" ∧
      s.GetCurrentAWSCredentials = none :=
  ⟨_, rfl, rfl, rfl, rfl, rfl⟩

/-- C15.  `GetAWSCredentials` returns the entry stored under the engine and the role
when both keys are present, whatever the timestamps of the entry, and nil when the
engine is not a key, which is so when the creds mapping was never made, or when the
role is not a key of the role mapping of the engine. -/
theorem get_returns_stored_entry (s : State) (e r : String) :
    (∀ rm c, mapGet? s.AWSCredentials e = some rm → mapGet? rm r = some c →
      s.GetAWSCredentials e r = c) ∧
    (mapGet? s.AWSCredentials e = none → s.GetAWSCredentials e r = none) ∧
    (∀ rm, mapGet? s.AWSCredentials e = some rm → mapGet? rm r = none →
      s.GetAWSCredentials e r = none) ∧
    (s.AWSCredentials = none → s.GetAWSCredentials e r = none) := by
  refine ⟨?_, ?_, ?_, ?_⟩
  · intro rm c h₁ h₂
    rw [GetAWSCredentials_eq, h₁]
    simp only [h₂]
  · intro h₁
    rw [GetAWSCredentials_eq, h₁]
  · intro rm h₁ h₂
    rw [GetAWSCredentials_eq, h₁]
    simp only [h₂]
  · intro h₁
    rw [GetAWSCredentials_eq, h₁]
    rfl

/-- C15 (witness): the entry of the worked example, whose `expire_at` is one hour after
its `created_at`, is returned as stored; another role of the engine gives nil. -/
theorem get_returns_stored_entry_witness :
    exampleState.GetAWSCredentials "aws-dev" "reader" =
        some ⟨⟨exampleNow, Time.Add exampleNow 3600000000000, Time.zero⟩, "AKIA1", "SK1", "ST1"⟩ ∧
    exampleState.GetAWSCredentials "aws-dev" "admin" = none ∧
    exampleState.GetAWSCredentials "aws-prod" "reader" = none ∧
    State.zero.GetAWSCredentials "aws-dev" "reader" = none :=
  ⟨(get_returns_stored_entry exampleState "aws-dev" "reader").1 _ _ rfl rfl,
    (get_returns_stored_entry exampleState "aws-dev" "admin").2.2.1 _ rfl rfl,
    (get_returns_stored_entry exampleState "aws-prod" "reader").2.1 rfl,
    (get_returns_stored_entry State.zero "aws-dev" "reader").2.2.2 rfl⟩

/-- C16.  For every State and every engine that is not a key of the creds mapping, which
is so for every engine when the mapping was never made, `GetCachedEngineRoles` returns
the empty sequence; the method only reads the State. -/
theorem roles_of_unknown_engine (s : State) (e : String)
    (h : mapGet? s.AWSCredentials e = none) : s.GetCachedEngineRoles e = [] := by
  unfold State.GetCachedEngineRoles State.rolesOf
  rw [h]
  rfl

/-- C16 (witness): an engine that the worked example does not cache, and the empty
State. -/
theorem roles_of_unknown_engine_witness :
    exampleState.GetCachedEngineRoles "aws-prod" = [] ∧
    State.zero.GetCachedEngineRoles "aws-dev" = [] :=
  ⟨roles_of_unknown_engine exampleState "aws-prod" rfl,
    roles_of_unknown_engine State.zero "aws-dev" rfl⟩

/-! ## The State Store: claim C19 -/

theorem GetAWSCredentials_rolesOf (s : State) (e r : String) :
    s.GetAWSCredentials e r =
      match mapGet? (s.rolesOf e) r with
      | some creds => creds
      | none => none := by
  rw [GetAWSCredentials_eq]
  unfold State.rolesOf
  cases mapGet? s.AWSCredentials e <;> rfl

theorem listing_ext {V W : Type} (m : Option (GoMap V)) (m' : Option (GoMap W))
    (h : ∀ k, k ∈ sortStrings (mapKeys m) ↔ k ∈ sortStrings (mapKeys m')) :
    sortStrings (mapKeys m) = sortStrings (mapKeys m') := by
  apply sortStrings_mapKeys_congr
  intro k
  have hk := h k
  rw [mem_sortStrings, mem_sortStrings, mem_mapKeys_iff, mem_mapKeys_iff] at hk
  exact Bool.eq_iff_iff.mpr hk

theorem rolesOf_after_set (cur : Current) (m : GoMap RoleMap) (e : String) (rm : RoleMap) :
    (State.mk cur (some (m.set e rm))).rolesOf e = rm := by
  simp only [State.rolesOf, mapGet?, GoMap.get?_set_self]

theorem rolesOf_after_set_of_ne (cur : Current) (m : GoMap RoleMap) {e e' : String}
    (rm : RoleMap) (h : e' ≠ e) :
    (State.mk cur (some (m.set e rm))).rolesOf e' =
      match m.get? e' with
      | some inner => inner
      | none => none := by
  simp only [State.rolesOf, mapGet?, GoMap.get?_set_of_ne _ _ h]

/-- The frame of a call of `SetAWSCredentials` that returns. -/
theorem SetAWSCredentials_frame (s s' : State) (e r : String)
    (c : Option client.AWSCredentials) (h : s.SetAWSCredentials e r c = Outcome.ret s') :
    (∀ e', e' ≠ e → s'.rolesOf e' = s.rolesOf e') ∧
    (∀ r', r' ≠ r → mapGet? (s'.rolesOf e) r' = mapGet? (s.rolesOf e) r') ∧
    (∀ e', e' ∈ s'.GetCachedEngines ↔ e' = e ∨ e' ∈ s.GetCachedEngines) ∧
    (∀ r', r' ∈ s'.GetCachedEngineRoles e ↔ r' = r ∨ r' ∈ s.GetCachedEngineRoles e) := by
  obtain ⟨m, inner, rfl, hm, hinner, hkeys⟩ := SetAWSCredentials_ret s s' e r c h
  refine ⟨?_, ?_, ?_, ?_⟩
  · intro e' he'
    rw [rolesOf_after_set_of_ne _ _ _ he', hm e' he']
    rfl
  · intro r' hr'
    rw [rolesOf_after_set]
    show (inner.set r c).get? r' = mapGet? (s.rolesOf e) r'
    rw [GoMap.get?_set_of_ne _ _ hr', hinner r' hr']
  · intro e'
    have hs' : (State.mk s.Current (some (m.set e (some (inner.set r c))))).GetCachedEngines =
        sortStrings (m.set e (some (inner.set r c))).keys := rfl
    rw [hs', mem_sortStrings, GoMap.mem_keys_set, hkeys]
    unfold State.GetCachedEngines
    rw [mem_sortStrings]
    tauto
  · intro r'
    rw [mem_GetCachedEngineRoles_iff, mem_GetCachedEngineRoles_iff, rolesOf_after_set]
    show ((inner.set r c).get? r').isSome = true ↔ _
    by_cases hr' : r' = r
    · subst hr'
      simp [GoMap.get?_set_self]
    · rw [GoMap.get?_set_of_ne _ _ hr', hinner r' hr']
      simp [hr']

theorem engine_listed_of_role_listed (s : State) (e r : String)
    (h : r ∈ s.GetCachedEngineRoles e) : e ∈ s.GetCachedEngines := by
  rw [mem_GetCachedEngineRoles_iff] at h
  rw [mem_GetCachedEngines_iff]
  cases hg : mapGet? s.AWSCredentials e with
  | none =>
    simp only [State.rolesOf, hg] at h
    simp [mapGet?] at h
  | some rm => rfl

/-- C19.  A call of `SetAWSCredentials` for an engine and a role that returns leaves the
lookup of every other pair as it was; the cached engines afterwards are the previous
ones and the engine; the cached roles of every other engine are as they were, those of
the engine are the previous ones and the role; and replacing a cached pair changes
neither listing.  A call that panics has changed nothing, and the engine was cached
before it. -/
theorem insertion_frame (s : State) (e r : String) (c : Option client.AWSCredentials) :
    (∀ s', s.SetAWSCredentials e r c = Outcome.ret s' →
      (∀ e' r', (e' ≠ e ∨ r' ≠ r) → s'.GetAWSCredentials e' r' = s.GetAWSCredentials e' r') ∧
      (∀ e', e' ∈ s'.GetCachedEngines ↔ e' = e ∨ e' ∈ s.GetCachedEngines) ∧
      (∀ e', e' ≠ e → s'.GetCachedEngineRoles e' = s.GetCachedEngineRoles e') ∧
      (∀ r', r' ∈ s'.GetCachedEngineRoles e ↔ r' = r ∨ r' ∈ s.GetCachedEngineRoles e) ∧
      (r ∈ s.GetCachedEngineRoles e →
        s'.GetCachedEngines = s.GetCachedEngines ∧
        s'.GetCachedEngineRoles e = s.GetCachedEngineRoles e)) ∧
    (∀ msg, s.SetAWSCredentials e r c = Outcome.fault msg → e ∈ s.GetCachedEngines) := by
  constructor
  · intro s' h
    obtain ⟨hroles, hget, hengines, hrolesE⟩ := SetAWSCredentials_frame s s' e r c h
    refine ⟨?_, hengines, ?_, hrolesE, ?_⟩
    · intro e' r' hne
      rw [GetAWSCredentials_rolesOf, GetAWSCredentials_rolesOf]
      by_cases he : e' = e
      · subst he
        rcases hne with hne | hne
        · exact absurd rfl hne
        · rw [hget r' hne]
      · rw [hroles e' he]
    · intro e' he
      unfold State.GetCachedEngineRoles
      rw [hroles e' he]
    · intro hr
      have he := engine_listed_of_role_listed s e r hr
      constructor
      · apply listing_ext
        intro k
        show k ∈ s'.GetCachedEngines ↔ k ∈ s.GetCachedEngines
        rw [hengines k]
        constructor
        · rintro (hk | hk)
          · exact hk ▸ he
          · exact hk
        · exact Or.inr
      · apply listing_ext
        intro k
        show k ∈ s'.GetCachedEngineRoles e ↔ k ∈ s.GetCachedEngineRoles e
        rw [hrolesE k]
        constructor
        · rintro (hk | hk)
          · exact hk ▸ hr
          · exact hk
        · exact Or.inr
  · intro msg h
    rw [mem_GetCachedEngines_iff]
    cases hg : mapGet? s.AWSCredentials e with
    | none =>
      rw [SetAWSCredentials_of_absent s e r c hg] at h
      exact absurd h (by simp)
    | some rm => rfl

/-- C19 (witness): a second role for the engine of the worked example leaves the cached
pair as it was and adds no engine. -/
theorem insertion_frame_witness :
    ∃ s' : State,
      exampleState.SetAWSCredentials "aws-dev" "admin" none = Outcome.ret s' ∧
      s'.GetAWSCredentials "aws-dev" "reader" = exampleState.GetAWSCredentials "aws-dev" "reader" ∧
      (∀ e', e' ∈ s'.GetCachedEngines ↔ e' = "aws-dev" ∨ e' ∈ exampleState.GetCachedEngines) :=
  ⟨_, rfl,
    ((insertion_frame exampleState "aws-dev" "admin" none).1 _ rfl).1 "aws-dev" "reader"
      (Or.inr (by decide)),
    ((insertion_frame exampleState "aws-dev" "admin" none).1 _ rfl).2.1⟩

/-! ## The state file: claim C17 -/

/-- C17.  When the path names no file, `Read` returns the empty State, in which nothing
is selected and nothing is cached, and no error.  When the file holds bytes that are
not JSON, or a JSON text that does not decode into a State, such as one whose value is
a string, a number, a boolean or an array, `Read` returns an error and the nil
State. -/
theorem read_results (tc : TimeCodec) (filePath : String) (fs : FS) :
    (fs.entry filePath = FileEntry.absent →
      Read tc filePath fs = (some State.zero, none)) ∧
    (State.zero.Current = ⟨"", ""⟩ ∧ State.zero.GetCachedEngines = [] ∧
      ∀ e r, State.zero.GetAWSCredentials e r = none) ∧
    (fs.entry filePath = FileEntry.file FileContent.garbage →
      ∃ err, Read tc filePath fs = (none, some err)) ∧
    (∀ j err, fs.entry filePath = FileEntry.file (FileContent.json j) →
      unmarshalState tc j = Except.error err →
      ∃ err', Read tc filePath fs = (none, some err')) ∧
    (∀ j, (∃ v, j = Json.str v) ∨ (∃ v, j = Json.number v) ∨ (∃ b, j = Json.bool b) ∨
        (∃ xs, j = Json.arr xs) →
      ∃ err, unmarshalState tc j = Except.error err) := by
  refine ⟨?_, ⟨rfl, rfl, fun _ _ => rfl⟩, ?_, ?_, ?_⟩
  · intro h
    simp only [Read, h]
  · intro h
    exact ⟨"error parsing vac state file: invalid character", by simp only [Read, h]⟩
  · intro j err h hj
    exact ⟨"error parsing vac state file: " ++ err, by simp only [Read, h, hj]⟩
  · rintro j (⟨v, rfl⟩ | ⟨v, rfl⟩ | ⟨b, rfl⟩ | ⟨xs, rfl⟩) <;> exact ⟨_, rfl⟩

/-- C17 (witness): no file, and a file whose JSON value is an array. -/
theorem read_results_witness :
    Read exampleCodec "state.json" emptyFS = (some State.zero, none) ∧
    ∃ err, Read exampleCodec "state.json" (fsWith (Json.arr [])) = (none, some err) :=
  ⟨(read_results exampleCodec "state.json" emptyFS).1 rfl,
    (read_results exampleCodec "state.json" (fsWith (Json.arr []))).2.2.2.1 (Json.arr []) _ rfl rfl⟩

/-! ## The client: claims C18 and C20 -/

/-- C18 (failing input).  On a list answer whose `keys` is a string, not a sequence, and
on one whose `keys` holds a number after a string, `ListAWSSecretEngineRoles` returns
nothing: the type assertion panics. -/
theorem list_roles_faults_on_wrong_shape :
    client.ListAWSSecretEngineRoles
        (clientAnswering (some ⟨0, some ⟨[("keys", Json.str "admin")], by decide⟩⟩))
        "aws-dev" =
      Outcome.fault "interface conversion: interface {} is not []interface {}" ∧
    client.ListAWSSecretEngineRoles
        (clientAnswering
          (some ⟨0, some ⟨[("keys", Json.arr [Json.str "admin", Json.number "7"])], by decide⟩⟩))
        "aws-dev" =
      Outcome.fault "interface conversion: interface {} is not string" :=
  ⟨rfl, rfl⟩

/-- C20 (failing input).  On a write that answers the nil response and no error,
`GenerateAWSCredentials` reads the lease duration through the nil pointer and panics;
on a response whose `access_key` is a number the type assertion panics. -/
theorem generate_faults_on_nil_response :
    client.GenerateAWSCredentials (clientAnswering none) exampleNow "aws-dev" "reader" =
      Outcome.fault "invalid memory address or nil pointer dereference" ∧
    client.GenerateAWSCredentials
        (clientAnswering (some ⟨3600, some ⟨[("access_key", Json.number "7")], by decide⟩⟩))
        exampleNow "aws-dev" "reader" =
      Outcome.fault "interface conversion: interface {} is not string" :=
  ⟨rfl, rfl⟩

/-! ## The client: claims C9 and C10 -/

/-- C9 (failing input).  On a write response with a lease of one hour whose data holds
`secret_key` bound to a number and no other field, the missing `access_key` is passed
over and the type assertion on `secret_key` panics: no credential is returned.  The
same happens when `access_key` is bound to `null`. -/
theorem generate_faults_on_field_of_other_type :
    client.GenerateAWSCredentials
        (clientAnswering (some ⟨3600, some ⟨[("secret_key", Json.number "7")], by decide⟩⟩))
        exampleNow "aws-dev" "reader" =
      Outcome.fault "interface conversion: interface {} is not string" ∧
    client.GenerateAWSCredentials
        (clientAnswering (some ⟨3600, some ⟨[("access_key", Json.null)], by decide⟩⟩))
        exampleNow "aws-dev" "reader" =
      Outcome.fault "interface conversion: interface {} is not string" :=
  ⟨rfl, rfl⟩

/-- C10 (failing input).  On a list answer whose data has the field `keys` bound to
`null`, and on one whose `keys` holds `null` after a string, `ListAWSSecretEngineRoles`
returns no sequence: the type assertion panics. -/
theorem list_roles_faults_on_null_keys :
    client.ListAWSSecretEngineRoles
        (clientAnswering (some ⟨0, some ⟨[("keys", Json.null)], by decide⟩⟩)) "aws-dev" =
      Outcome.fault "interface conversion: interface {} is not []interface {}" ∧
    client.ListAWSSecretEngineRoles
        (clientAnswering
          (some ⟨0, some ⟨[("keys", Json.arr [Json.str "admin", Json.null])], by decide⟩⟩))
        "aws-dev" =
      Outcome.fault "interface conversion: interface {} is not string" :=
  ⟨rfl, rfl⟩

end Vac
